import Mathlib

/-!
Verification development for the Mantic ranking and graph-analysis engine.

Shallow embedding of:
* `src/brain-scorer.ts` (ManticEngine: buildIndex, normalizeSeparators, search, scoreEntry),
* `src/parallel-mantic.ts` (ParallelMantic: shard chunking, broadcast, merge),
* `src/search.worker.ts` (worker message handler),
* the dependency-graph module of the VS Code extension
  (extractImports, resolveImportPath, buildDependencyGraph, calculateImportRanks).

Strings are modelled as `List Char` (ASCII behaviour of the JS string
operations used by the code), JS numbers as `Int`/`Nat` (all scores are
integer arithmetic in the source) and, for `calculateImportRanks`, as `ℚ`.
`Array.prototype.sort` is stable (ECMA-262); it is modelled as a stable
selection sort: repeatedly extract the earliest comparator-minimal element.
-/

abbrev Str := List Char

/-- ASCII lowercase letter test, the `[a-z]` character class. -/
def isLowerAZ (c : Char) : Bool := 'a' ≤ c && c ≤ 'z'

/-- ASCII uppercase letter test, the `[A-Z]` character class. -/
def isUpperAZ (c : Char) : Bool := 'A' ≤ c && c ≤ 'Z'

/-- JS `toLowerCase` on an ASCII character. -/
def toLowerCh (c : Char) : Char :=
  if isUpperAZ c then Char.ofNat (c.toNat + 32) else c

/-- JS `String.prototype.toLowerCase` (ASCII fragment). -/
def strLower (s : Str) : Str := s.map toLowerCh

/-- The JS `\s` class restricted to ASCII: space, tab, LF, VT, FF, CR. -/
def isWsCh (c : Char) : Bool :=
  c = ' ' || c = '\t' || c = '\n' || c = '\r' || c.toNat = 11 || c.toNat = 12

/-- The `[-_\s]` class of `normalizeSeparators`. -/
def isSepCh (c : Char) : Bool := c = '-' || c = '_' || isWsCh c

/-- The `[A-Za-z0-9_]` word-character class (`\w`, used for `\b`). -/
def isWordCh (c : Char) : Bool :=
  isLowerAZ c || isUpperAZ c || ('0' ≤ c && c ≤ '9') || c = '_'

/-- `text.replace(/([a-z])([A-Z])/g, '$1 $2')`: insert a space at every
lowercase-to-uppercase transition. -/
def camelSplit : Str → Str
  | [] => []
  | [c] => [c]
  | a :: b :: rest =>
    if isLowerAZ a && isUpperAZ b then a :: ' ' :: camelSplit (b :: rest)
    else a :: camelSplit (b :: rest)

/-- Worker for `collapseSeps`; the flag records whether the previous character
was part of a separator run already replaced by a space. -/
def collapseGo : Bool → Str → Str
  | _, [] => []
  | inRun, c :: rest =>
    if isSepCh c then
      if inRun then collapseGo true rest else ' ' :: collapseGo true rest
    else c :: collapseGo false rest

/-- `text.replace(/[-_\s]+/g, ' ')`: collapse every separator run to one space. -/
def collapseSeps (s : Str) : Str := collapseGo false s

/-- `ManticEngine.normalizeSeparators` from brain-scorer.ts: CamelCase split,
then separator collapsing.  Note: the source does NOT lowercase here. -/
def normalizeSeparators (s : Str) : Str := collapseSeps (camelSplit s)

/-- No lowercase-to-uppercase adjacency: the strings on which the CamelCase
pass of `normalizeSeparators` is the identity. -/
def noLU : Str → Bool
  | a :: b :: rest => !(isLowerAZ a && isUpperAZ b) && noLU (b :: rest)
  | _ => true

/-- JS `String.prototype.trim` (ASCII whitespace). -/
def trimStr (s : Str) : Str :=
  ((s.dropWhile (fun c => isWsCh c)).reverse.dropWhile (fun c => isWsCh c)).reverse

/-- Worker for `splitWs`, accumulating the current (reversed) word. -/
def wordsGo : Str → Str → List Str
  | cur, [] => if cur.isEmpty then [] else [cur.reverse]
  | cur, c :: rest =>
    if isWsCh c then
      if cur.isEmpty then wordsGo [] rest else cur.reverse :: wordsGo [] rest
    else wordsGo (c :: cur) rest

/-- `query.split(/\s+/).filter(Boolean)`: whitespace-delimited words. -/
def splitWs (s : Str) : List Str := wordsGo [] s

/-- Worker for `splitOnPred`, accumulating the current (reversed) segment. -/
def splitChGo (p : Char → Bool) : Str → Str → List Str
  | cur, [] => [cur.reverse]
  | cur, c :: rest =>
    if p c then cur.reverse :: splitChGo p [] rest
    else splitChGo p (c :: cur) rest

/-- JS `split` on a single-character class (each occurrence separates; empty
segments are kept), e.g. `p.split(/[/\\]/)`. -/
def splitOnPred (p : Char → Bool) (s : Str) : List Str := splitChGo p [] s

/-- Worker for `splitRuns`; the flag records being inside a separator run. -/
def splitRunsGo (p : Char → Bool) : Bool → Str → Str → List Str
  | _, cur, [] => [cur.reverse]
  | inRun, cur, c :: rest =>
    if p c then
      if inRun then splitRunsGo p true cur rest
      else cur.reverse :: splitRunsGo p true [] rest
    else splitRunsGo p false (c :: cur) rest

/-- JS `split` on a `+`-quantified class (a run separates once), e.g.
`filename.split(/[\s_\-\.]+/)`. -/
def splitRuns (p : Char → Bool) (s : Str) : List Str := splitRunsGo p false [] s

/-- JS `String.prototype.includes`: `strIncludes s pat` means `pat` occurs in
`s` as a contiguous substring. -/
def strIncludes : Str → Str → Bool
  | s, pat =>
    match s with
    | [] => pat.isEmpty
    | _ :: rest => pat.isPrefixOf s || strIncludes rest pat

/-- Case-insensitive substring test, used for the `/i`-flagged patterns. -/
def strIncludesCI (s pat : Str) : Bool := strIncludes (strLower s) (strLower pat)

/-- `replace(/\s/g, '')`: remove every whitespace character. -/
def removeWs (s : Str) : Str := s.filter (fun c => !(isWsCh c))

/-- Suffix of `s` after its last `.` (empty if `s` ends in `.`). -/
def afterLastDot (s : Str) : Str := (s.reverse.takeWhile (fun c => c ≠ '.')).reverse

/-- `fileName.includes('.') ? '.' + fileName.split('.').pop() : ''`. -/
def extOf (fileName : Str) : Str :=
  if fileName.contains '.' then '.' :: afterLastDot fileName else []

/-- `s.replace(/\.[^.]+$/, '')`: drop a final `.`-extension when it has at
least one character and contains no further dot. -/
def stripLastExt (s : Str) : Str :=
  let r := s.reverse
  let a := r.takeWhile (fun c => c ≠ '.')
  if a.isEmpty then s
  else if a.length = r.length then s
  else (r.drop (a.length + 1)).reverse

/-- The alternatives of the dynamic extension regex of brain-scorer.ts:
keys of EXTENSION_WEIGHTS without the dot, stably sorted by length
descending (as the constructor computes). -/
def knownExts : List Str :=
  ["graphql", "prisma", "json", "tsx", "jsx", "css",
   "ts", "js", "rs", "go", "py", "md"].map String.toList

/-- One position of `extensionRegex` (`\.(alts)\b`, case-insensitive):
a dot, then the first alternative that matches here, then a word boundary.
Returns the raw matched alternative text. -/
def extMatchAt : Str → Option Str
  | '.' :: rest =>
    knownExts.findSome? (fun alt =>
      if strLower (rest.take alt.length) = alt
          && (rest.length = alt.length || !(isWordCh (rest.getD alt.length ' ')))
      then some (rest.take alt.length) else none)
  | _ => none

/-- `originalQuery.match(this.extensionRegex)`: leftmost match of the
extension regex; yields the captured extension text (group 1). -/
def extQueryMatch : Str → Option Str
  | [] => none
  | c :: rest =>
    match extMatchAt (c :: rest) with
    | some m => some m
    | none => extQueryMatch rest

/-- One precomputed index record (interface FileEntry of brain-scorer.ts). -/
structure FileEntry where
  original : Str
  lowerP : Str
  normalized : Str
  fileName : Str
  fileNameLower : Str
  fileNameNormalized : Str
  parentDirLower : Str
  parentDirNormalized : Str
  pathParts : List Str
  ext : Str
  depth : Nat
deriving DecidableEq

/-- One element of `ManticEngine.buildIndex`: all derived fields of a path. -/
def mkEntry (p : Str) : FileEntry :=
  let parts := splitOnPred (fun c => c = '/' || c = '\\') p
  let fileName := parts.getLastD []
  let parentDir := if parts.length > 1 then parts.getD (parts.length - 2) [] else []
  let lower := strLower p
  { original := p
    lowerP := lower
    normalized := normalizeSeparators lower
    fileName := fileName
    fileNameLower := strLower fileName
    fileNameNormalized := normalizeSeparators (strLower fileName)
    parentDirLower := strLower parentDir
    parentDirNormalized := normalizeSeparators (strLower parentDir)
    pathParts := parts.map strLower
    ext := extOf fileName
    depth := parts.length }

/-- `ManticEngine.buildIndex`. -/
def buildIndex (filePaths : List Str) : List FileEntry := filePaths.map mkEntry

inductive MatchType where
  | exact
  | filename
  | fuzzy
deriving DecidableEq

/-- interface SearchResult of brain-scorer.ts. -/
structure SearchResult where
  file : Str
  score : Int
  matchType : MatchType
deriving DecidableEq

/-- `EXTENSION_WEIGHTS[entry.ext] || 0` (exact, case-sensitive key lookup). -/
def extWeight (ext : Str) : Int :=
  if ext = ".ts".toList then 20 else if ext = ".tsx".toList then 20
  else if ext = ".js".toList then 15 else if ext = ".jsx".toList then 15
  else if ext = ".rs".toList then 20 else if ext = ".go".toList then 20
  else if ext = ".py".toList then 15 else if ext = ".prisma".toList then 15
  else if ext = ".graphql".toList then 10 else if ext = ".css".toList then 5
  else if ext = ".json".toList then 5 else if ext = ".md".toList then 2
  else 0

/-- DEFINITION_PATTERNS test (all are case-insensitive substring patterns). -/
def definitionLike (p : Str) : Bool :=
  [".model.", ".schema.", ".entity.", ".type.", ".interface.",
   "/models/", "/schemas/", "/entities/"].any (fun pat => strIncludesCI p pat.toList)

/-- IMPLEMENTATION_PATTERNS test. -/
def implementationLike (p : Str) : Bool :=
  [".service.", ".controller.", ".handler.", ".manager.",
   "/services/", "/controllers/"].any (fun pat => strIncludesCI p pat.toList)

/-- TEST_PATTERNS test (`/\/tests?\//i` expands to the two slash forms). -/
def testLike (p : Str) : Bool :=
  [".test.", ".spec.", ".e2e.", "/test/", "/tests/",
   "__tests__"].any (fun pat => strIncludesCI p pat.toList)

/-- Index of the first path component after position `last` equal to `term`
(the exact-match arm of the path-sequence scan). -/
def termExactIdx (parts : List Str) (term : Str) (last : Int) : Option Nat :=
  (parts.enum.find? (fun pr => decide ((pr.1 : Int) > last) && pr.2 == term)).map (·.1)

/-- Index of the first path component after `last` with a word-boundary match
(`term_`/`term-`/`term.` as prefix) or, for terms of length ≥ 4, a substring
match (the non-exact arms of the path-sequence scan). -/
def termLooseIdx (parts : List Str) (term : Str) (last : Int) : Option Nat :=
  (parts.enum.find? (fun pr =>
    decide ((pr.1 : Int) > last) &&
      (List.isPrefixOf (term ++ ['_']) pr.2 || List.isPrefixOf (term ++ ['-']) pr.2
        || List.isPrefixOf (term ++ ['.']) pr.2
        || (decide (term.length ≥ 4) && strIncludes pr.2 term)))).map (·.1)

/-- Result of the inner `for idx` scan of the path-sequence block: the loop
breaks at the first exact component match, otherwise keeps the first
boundary/substring match; the Bool is `isExactMatch`. -/
def termMatchIdx (parts : List Str) (term : Str) (last : Int) : Option (Nat × Bool) :=
  match termExactIdx parts term last with
  | some i => some (i, true)
  | none => (termLooseIdx parts term last).map (fun i => (i, false))

/-- The outer `for (const term of terms)` loop of the path-sequence block.
State: accumulated pathScore, lastMatchIndex, consecutiveMatches. -/
def seqFold (parts : List Str) : List Str → Int × Int × Nat → Int × Int × Nat
  | [], st => st
  | t :: ts, (ps, last, consec) =>
    match termMatchIdx parts t last with
    | some (i, isEx) =>
      let consec2 := consec + 1
      let bonus : Int := 25 * (consec2 : Int) + (if isEx then 10 else 0)
      seqFold parts ts (ps + bonus, (i : Int), consec2)
    | none => seqFold parts ts (ps, last, 0)

/-- The gapless-consecutive verification loop guarding the `+100` perfect
sequential path bonus. -/
def allConsecutiveCheck (parts : List Str) : List Str → Int → Bool
  | [], _ => true
  | t :: ts, startIdx =>
    match (parts.enum.find? (fun pr => decide ((pr.1 : Int) > startIdx) && pr.2 == t)).map (·.1) with
    | none => false
    | some i =>
      if decide (startIdx ≠ -1) && decide ((i : Int) ≠ startIdx + 1) then false
      else allConsecutiveCheck parts ts (i : Int)

/-- The soft-AND accumulation (step D of scoreEntry): +10 per term contained
in the normalized path, −50 per missing term. -/
def softAndScore (normalized : Str) : List Str → Int
  | [] => 0
  | t :: ts => (if strIncludes normalized t then 10 else -50) + softAndScore normalized ts

/-- The structural-specificity loop: per term, filename word match +30,
else exact parent-directory match +60, else parent-directory substring +30,
else loose +5; counts terms matched structurally. -/
def structFold (entry : FileEntry) : List Str → Int × Nat → Int × Nat
  | [], st => st
  | t :: ts, (sc, n) =>
    let words := splitRuns (fun c => isWsCh c || c = '_' || c = '-' || c = '.') entry.fileNameNormalized
    if words.any (fun w => w == t || List.isPrefixOf t w) then
      structFold entry ts (sc + 30, n + 1)
    else if entry.parentDirLower = t then structFold entry ts (sc + 60, n + 1)
    else if strIncludes entry.parentDirNormalized t then structFold entry ts (sc + 30, n + 1)
    else structFold entry ts (sc + 5, n)

/-- Accumulation part of `scoreEntry` (everything after the early returns),
with `score0` the contribution of the single-short-term directory boost A0. -/
def scoreAccum (entry : FileEntry) (terms : List Str) (originalQuery : Str)
    (normalizedQuery : Str) (score0 : Int) : Int :=
  let sAfterD := score0 + softAndScore entry.normalized terms + 50
  let sAfterSeq :=
    if originalQuery.contains '/' || decide (terms.length ≥ 3) then
      let st := seqFold entry.pathParts terms (0, -1, 0)
      let base := sAfterD + st.1
      if st.2.2 = terms.length && decide (terms.length ≥ 3)
          && allConsecutiveCheck entry.pathParts terms (-1) then base + 100
      else base
    else sAfterD
  let stp := structFold entry terms (0, 0)
  let sAfterStruct := sAfterSeq + stp.1 + (if stp.2 = terms.length then 50 else 0)
  let sAdj :=
    if strIncludes (removeWs entry.normalized) (removeWs normalizedQuery) then
      sAfterStruct + 20
    else sAfterStruct
  let sExt := sAdj + extWeight entry.ext
  let sDef :=
    if definitionLike entry.original then sExt + 40
    else if implementationLike entry.original then sExt + 20
    else sExt
  let sTest := if testLike entry.original then sDef - 60 else sDef
  max 0 sTest

/-- `ManticEngine.scoreEntry` (brain-scorer.ts, lines 197-396). -/
def scoreEntry (entry : FileEntry) (terms : List Str) (fullQueryLower : Str)
    (originalQuery : Str) : Int :=
  let normalizedQuery := strLower (normalizeSeparators originalQuery)
  let isSingleTermQuery := !(originalQuery.contains ' ') && originalQuery == strLower originalQuery
  let score0 : Int :=
    if terms.length == 1 && isSingleTermQuery && decide ((terms.headD []).length ≤ 4)
        && entry.pathParts.any (fun part => part == terms.headD []) then 8000
    else 0
  if entry.fileNameLower = fullQueryLower then 10000
  else if entry.fileNameNormalized = normalizedQuery then 9000
  else if strLower (stripLastExt entry.fileName) = stripLastExt fullQueryLower then 5000
  else
    match extQueryMatch originalQuery with
    | some m =>
      if entry.ext ≠ '.' :: strLower m then 0
      else scoreAccum entry terms originalQuery normalizedQuery score0
    | none => scoreAccum entry terms originalQuery normalizedQuery score0

/-- The sort comparator of `search` and of the parallel merge, as the induced
before-or-equal relation: score descending, then path length ascending. -/
def resultLE (a b : SearchResult) : Bool :=
  decide (b.score < a.score) || (a.score == b.score && decide (a.file.length ≤ b.file.length))

/-- Stable selection: the earliest comparator-minimal element of the list,
together with the remaining elements in their original order. -/
def pickBest : List SearchResult → Option (SearchResult × List SearchResult)
  | [] => none
  | x :: xs =>
    match pickBest xs with
    | none => some (x, [])
    | some (y, ys) => if resultLE x y then some (x, xs) else some (y, x :: ys)

/-- Fuel-indexed stable selection sort (fuel ≥ length suffices). -/
def ssortFuel : Nat → List SearchResult → List SearchResult
  | 0, _ => []
  | fuel + 1, l =>
    match pickBest l with
    | none => []
    | some (x, r) => x :: ssortFuel fuel r

/-- The stable sort performed by `results.sort(...)` in search and in the
parallel merge (Array.prototype.sort is stable per ECMA-262). -/
def ssortResults (l : List SearchResult) : List SearchResult := ssortFuel l.length l

/-- The per-entry body of the search loop: score the entry, keep it only if
positive, tag matchType by the 150 threshold. -/
def resultOfEntry (terms : List Str) (fullQueryLower : Str) (originalQuery : Str)
    (entry : FileEntry) : Option SearchResult :=
  let score := scoreEntry entry terms fullQueryLower originalQuery
  if score > 0 then
    some { file := entry.original, score := score
           matchType := if score > 150 then MatchType.exact else MatchType.fuzzy }
  else none

/-- `ManticEngine.search` over a prebuilt index. -/
def searchIndex (index : List FileEntry) (query : Str) (limit : Nat) : List SearchResult :=
  if query = [] then []
  else
    let queryTrimmed := trimStr query
    let queryLower := strLower (normalizeSeparators queryTrimmed)
    let terms := splitWs queryLower
    if terms = [] then []
    else (ssortResults (index.filterMap (resultOfEntry terms queryLower queryTrimmed))).take limit

/-- `buildIndex` followed by `search`: one shard engine on its file list. -/
def engineSearch (filePaths : List Str) (query : Str) (limit : Nat) : List SearchResult :=
  searchIndex (buildIndex filePaths) query limit

/-- `ParallelMantic.initWorkers` chunking: `chunkSize = Math.ceil(n / workerCount)`,
shard `i` is `allFiles.slice(i*chunkSize, (i+1)*chunkSize)`. -/
def codeChunks (allFiles : List Str) (workerCount : Nat) : List (List Str) :=
  let chunkSize := (allFiles.length + workerCount - 1) / workerCount
  (List.range workerCount).map (fun i => (allFiles.drop (i * chunkSize)).take chunkSize)

/-- The shards actually given to workers: `workerCount = Math.max(2, cpuCount - 1)`
and empty chunks are skipped (`if (chunk.length === 0) continue`). -/
def initWorkerChunks (allFiles : List Str) (cpuCount : Nat) : List (List Str) :=
  (codeChunks allFiles (max 2 (cpuCount - 1))).filter (fun c => !c.isEmpty)

/-- `ParallelMantic.search` given the shard contents: broadcast query and limit
to every worker (each worker is an engine over its shard), flatten the
locally sorted top-`limit` lists in worker order, sort with the same
comparator, truncate to `limit`. -/
def parallelChunksSearch (chunks : List (List Str)) (query : Str) (limit : Nat) :
    List SearchResult :=
  if query = [] then []
  else (ssortResults ((chunks.map (fun c => engineSearch c query limit)).flatten)).take limit

/-- `new ParallelMantic(allFiles)` followed by `search(query, limit)`. -/
def parallelManticSearch (cpuCount : Nat) (allFiles : List Str) (query : Str)
    (limit : Nat) : List SearchResult :=
  parallelChunksSearch (initWorkerChunks allFiles cpuCount) query limit

/-- The message handler of search.worker.ts: `engine.search` runs inside
`try`; on a throw the `catch` posts an empty result array back.  Its input
is modelled as the outcome of the engine call. -/
def workerHandleMessage (outcome : Except String (List SearchResult)) : List SearchResult :=
  match outcome with
  | Except.ok rs => rs
  | Except.error _ => []

/-- The promise returned by `ParallelMantic.search`, given the engine outcome
of each shard worker: every worker posts a message (the handler catches), so
`Promise.all` resolves with the merged, re-sorted, truncated results. -/
def parallelSearchOutcome (outcomes : List (Except String (List SearchResult)))
    (query : Str) (limit : Nat) : Except String (List SearchResult) :=
  if query = [] then Except.ok []
  else Except.ok ((ssortResults ((outcomes.map workerHandleMessage).flatten)).take limit)

/-- interface ImportStatement of the dependency-graph module. -/
structure ImportStatement where
  source : Str
  importedNames : List Str
  isDefault : Bool
  isDynamic : Bool
  line : Nat
deriving DecidableEq

/-- Consume a literal. -/
def litP (pat : Str) (s : Str) : Option Str :=
  if List.isPrefixOf pat s then some (s.drop pat.length) else none

/-- Consume `\s+` (the following pattern element is never whitespace, so the
greedy maximal run is exact). -/
def ws1P (s : Str) : Option Str :=
  let t := s.dropWhile (fun c => isWsCh c)
  if t.length < s.length then some t else none

/-- Consume `\s*`. -/
def wsP (s : Str) : Option Str := some (s.dropWhile (fun c => isWsCh c))

/-- Consume `(\w+)` (greedy; the following element is never a word char). -/
def word1P (s : Str) : Option (Str × Str) :=
  let w := s.takeWhile (fun c => isWordCh c)
  if w.isEmpty then none else some (w, s.drop w.length)

/-- Consume one quote character `['"]` (opening and closing quotes are
independent in the source patterns). -/
def quoteP (s : Str) : Option Str :=
  match s with
  | c :: rest => if c = '\'' || c = '"' then some rest else none
  | [] => none

/-- Consume `([^'"]+)` (greedy up to the next quote). -/
def qcontentP (s : Str) : Option (Str × Str) :=
  let w := s.takeWhile (fun c => c ≠ '\'' && c ≠ '"')
  if w.isEmpty then none else some (w, s.drop w.length)

/-- Leftmost-match search: try the position parser at position 0, 1, …
(the semantics of an unanchored `exec`). -/
def scanFirst {α : Type} (f : Str → Option α) : Str → Option α
  | [] => f []
  | c :: rest =>
    match f (c :: rest) with
    | some r => some r
    | none => scanFirst f rest

/-- `import\s+(\w+)\s+from\s+['"]([^'"]+)['"]` at one position:
yields (default name, source). -/
def pDefaultAt (s : Str) : Option (Str × Str) :=
  (litP "import".toList s).bind fun s1 =>
  (ws1P s1).bind fun s2 =>
  (word1P s2).bind fun pr =>
  (ws1P pr.2).bind fun s3 =>
  (litP "from".toList s3).bind fun s4 =>
  (ws1P s4).bind fun s5 =>
  (quoteP s5).bind fun s6 =>
  (qcontentP s6).bind fun qr =>
  (quoteP qr.2).map fun _ => (pr.1, qr.1)

/-- `\{\s*([^}]+)\s*\}` starting right after the brace: the greedy/backtracking
resolution of the regex captures the content up to the closing brace with its
leading whitespace removed (all but one character when the content is all
whitespace). Yields (capture, rest after the closing brace). -/
def braceCapture (s : Str) : Option (Str × Str) :=
  let content := s.takeWhile (fun c => c ≠ '}')
  match s.drop content.length with
  | [] => none
  | _ :: rest2 =>
    if content.isEmpty then none
    else
      let t := content.dropWhile (fun c => isWsCh c)
      some (if t.isEmpty then [content.getLastD ' '] else t, rest2)

/-- `import\s+\{\s*([^}]+)\s*\}\s+from\s+['"]([^'"]+)['"]` at one position:
yields (raw captured name list, source). -/
def pNamedAt (s : Str) : Option (Str × Str) :=
  (litP "import".toList s).bind fun s1 =>
  (ws1P s1).bind fun s2 =>
  (litP "\x7b".toList s2).bind fun s3 =>
  (braceCapture s3).bind fun br =>
  (ws1P br.2).bind fun s4 =>
  (litP "from".toList s4).bind fun s5 =>
  (ws1P s5).bind fun s6 =>
  (quoteP s6).bind fun s7 =>
  (qcontentP s7).bind fun qr =>
  (quoteP qr.2).map fun _ => (br.1, qr.1)

/-- `import\s+\*\s+as\s+(\w+)\s+from\s+['"]([^'"]+)['"]` at one position. -/
def pNsAt (s : Str) : Option (Str × Str) :=
  (litP "import".toList s).bind fun s1 =>
  (ws1P s1).bind fun s2 =>
  (litP "*".toList s2).bind fun s3 =>
  (ws1P s3).bind fun s4 =>
  (litP "as".toList s4).bind fun s5 =>
  (ws1P s5).bind fun s6 =>
  (word1P s6).bind fun pr =>
  (ws1P pr.2).bind fun s7 =>
  (litP "from".toList s7).bind fun s8 =>
  (ws1P s8).bind fun s9 =>
  (quoteP s9).bind fun s10 =>
  (qcontentP s10).bind fun qr =>
  (quoteP qr.2).map fun _ => (pr.1, qr.1)

/-- `import\(['"]([^'"]+)['"]\)` at one position: yields the source. -/
def pDynAt (s : Str) : Option Str :=
  (litP "import(".toList s).bind fun s1 =>
  (quoteP s1).bind fun s2 =>
  (qcontentP s2).bind fun qr =>
  (quoteP qr.2).bind fun s3 =>
  (litP ")".toList s3).map fun _ => qr.1

/-- `(?:const|let|var)\s+(?:\{([^}]+)\}|(\w+))\s*=\s*require\(['"]([^'"]+)['"]\)`
at one position: yields (brace capture or plain word, source).  Inside the
braces the capture is raw (`[^}]+`, no whitespace trimming in this pattern). -/
def pReqAt (s : Str) : Option (Sum Str Str × Str) :=
  ((litP "const".toList s).orElse fun _ =>
    (litP "let".toList s).orElse fun _ => litP "var".toList s).bind fun s1 =>
  (ws1P s1).bind fun s2 =>
  ((match s2 with
    | '{' :: s3 =>
      let content := s3.takeWhile (fun c => c ≠ '}')
      (match s3.drop content.length with
       | [] => none
       | _ :: rest2 => if content.isEmpty then none else some (Sum.inl content, rest2))
    | _ => (word1P s2).map (fun pr => (Sum.inr pr.1, pr.2))
    : Option (Sum Str Str × Str))).bind fun br =>
  (wsP br.2).bind fun s4 =>
  (litP "=".toList s4).bind fun s5 =>
  (wsP s5).bind fun s6 =>
  (litP "require(".toList s6).bind fun s7 =>
  (quoteP s7).bind fun s8 =>
  (qcontentP s8).bind fun qr =>
  (quoteP qr.2).bind fun s9 =>
  (litP ")".toList s9).map fun _ => (br.1, qr.1)

/-- Does `\s+as\s+` match as a prefix here? -/
def asSepAt (s : Str) : Bool :=
  (((ws1P s).bind fun s1 => (litP "as".toList s1).bind ws1P)).isSome

/-- Worker for `splitAsFirst`. -/
def splitAsFirstGo : Str → Str → Str
  | acc, [] => acc.reverse
  | acc, c :: rest =>
    if asSepAt (c :: rest) then acc.reverse else splitAsFirstGo (c :: acc) rest

/-- `n.split(/\s+as\s+/)[0]`: everything before the leftmost ` as ` separator. -/
def splitAsFirst (s : Str) : Str := splitAsFirstGo [] s

/-- `n.trim().split(/\s+as\s+/)[0]`. -/
def processName (n : Str) : Str := splitAsFirst (trimStr n)

/-- `^from\s+([\w\.]+)\s+import\s+(.+)$` on the trimmed line (Python):
yields (source, raw names part). -/
def pPyFromLine (t : Str) : Option (Str × Str) :=
  (litP "from".toList t).bind fun s1 =>
  (ws1P s1).bind fun s2 =>
  (let w := s2.takeWhile (fun c => isWordCh c || c = '.')
   if w.isEmpty then none else some (w, s2.drop w.length)).bind fun pr =>
  (ws1P pr.2).bind fun s3 =>
  (litP "import".toList s3).bind fun s4 =>
  (ws1P s4).bind fun s5 =>
  if s5.isEmpty then none else some (pr.1, s5)

/-- `^import\s+([\w\.]+)` on the trimmed line (Python): yields the module. -/
def pPyImportLine (t : Str) : Option Str :=
  (litP "import".toList t).bind fun s1 =>
  (ws1P s1).bind fun s2 =>
  (let w := s2.takeWhile (fun c => isWordCh c || c = '.')
   if w.isEmpty then none else some w)

/-- `line.trim()` starts with `//`, `*` or `/*` (the comment skip). -/
def isCommentLine (line : Str) : Bool :=
  let t := trimStr line
  List.isPrefixOf "//".toList t || List.isPrefixOf "*".toList t
    || List.isPrefixOf "/*".toList t

/-- ES6 default import recognizer, as an ImportStatement for line `lineNum`. -/
def mDefault (lineNum : Nat) (line : Str) : Option ImportStatement :=
  (scanFirst pDefaultAt line).map fun pr =>
    { source := pr.2, importedNames := [pr.1], isDefault := true
      isDynamic := false, line := lineNum }

/-- ES6 named import recognizer. -/
def mNamed (lineNum : Nat) (line : Str) : Option ImportStatement :=
  (scanFirst pNamedAt line).map fun pr =>
    { source := pr.2
      importedNames := (splitOnPred (fun c => c = ',') pr.1).map processName
      isDefault := false, isDynamic := false, line := lineNum }

/-- ES6 namespace import recognizer (guarded by the trimmed-line test of the
source; on guard-pass-but-regex-fail the source falls through). -/
def mNs (lineNum : Nat) (line : Str) : Option ImportStatement :=
  if List.isPrefixOf "import * as".toList (trimStr line) then
    (scanFirst pNsAt line).map fun pr =>
      { source := pr.2, importedNames := [pr.1], isDefault := false
        isDynamic := false, line := lineNum }
  else none

/-- Dynamic import recognizer. -/
def mDyn (lineNum : Nat) (line : Str) : Option ImportStatement :=
  (scanFirst pDynAt line).map fun src =>
    { source := src, importedNames := [], isDefault := false
      isDynamic := true, line := lineNum }

/-- CommonJS require recognizer. -/
def mReq (lineNum : Nat) (line : Str) : Option ImportStatement :=
  (scanFirst pReqAt line).map fun pr =>
    match pr.1 with
    | Sum.inl raw =>
      { source := pr.2, importedNames := (splitOnPred (fun c => c = ',') raw).map trimStr
        isDefault := false, isDynamic := false, line := lineNum }
    | Sum.inr w =>
      { source := pr.2, importedNames := [w], isDefault := true
        isDynamic := false, line := lineNum }

/-- Python from-import recognizer. -/
def mPyFrom (lineNum : Nat) (line : Str) : Option ImportStatement :=
  (pPyFromLine (trimStr line)).map fun pr =>
    { source := pr.1
      importedNames := (splitOnPred (fun c => c = ',') pr.2).map processName
      isDefault := false, isDynamic := false, line := lineNum }

/-- Python whole-module import recognizer. -/
def mPyImport (lineNum : Nat) (line : Str) : Option ImportStatement :=
  (pPyImportLine (trimStr line)).map fun src =>
    { source := src, importedNames := [], isDefault := true
      isDynamic := false, line := lineNum }

/-- One iteration of the line loop of `extractImports`: skip comment lines,
otherwise the first matching recognizer (in source order) emits one
ImportStatement carrying the 1-based line number `idx + 1`. -/
def processLine (isPy : Bool) (idx : Nat) (line : Str) : Option ImportStatement :=
  if isCommentLine line then none
  else
    match mDefault (idx + 1) line with
    | some st => some st
    | none =>
      match mNamed (idx + 1) line with
      | some st => some st
      | none =>
        match mNs (idx + 1) line with
        | some st => some st
        | none =>
          match mDyn (idx + 1) line with
          | some st => some st
          | none =>
            match mReq (idx + 1) line with
            | some st => some st
            | none =>
              if isPy then
                match mPyFrom (idx + 1) line with
                | some st => some st
                | none => mPyImport (idx + 1) line
              else none

/-- Remove one trailing CR (the `\r?` of the line separator). -/
def stripCR (s : Str) : Str :=
  match s.getLast? with
  | some c => if c = '\r' then s.dropLast else s
  | none => s

/-- `content.split(/\r?\n/)`. -/
def splitLines (content : Str) : List Str :=
  (splitOnPred (fun c => c = '\n') content).map stripCR

/-- The line loop of `extractImports` over the split content. -/
def extractImportsLines (isPy : Bool) (lines : List Str) : List ImportStatement :=
  lines.enum.flatMap (fun pr => (processLine isPy pr.1 pr.2).toList)

/-- `extractImports(filepath, cwd)`: the file content is supplied directly
(`none` models an unreadable file, whose catch branch returns `[]`). -/
def extractImports (filepath : Str) (content : Option Str) : List ImportStatement :=
  match content with
  | none => []
  | some c => extractImportsLines (List.isSuffixOf ".py".toList filepath) (splitLines c)

/-- Node `path.dirname` (posix, for the relative paths used here). -/
def pathDirname (p : Str) : Str :=
  let a := p.reverse.takeWhile (fun c => c ≠ '/')
  if a.length = p.length then ".".toList
  else if a.length + 1 = p.length then "/".toList
  else (p.reverse.drop (a.length + 1)).reverse

/-- Node `path.join` segment resolution over `.` , `..` and empty segments. -/
def normSegs (segs : List Str) : List Str :=
  segs.foldl (fun stack seg =>
    if seg = [] || seg = ".".toList then stack
    else if seg = "..".toList then
      match stack.getLast? with
      | some lastSeg => if lastSeg = "..".toList then stack ++ [seg] else stack.dropLast
      | none => [seg]
    else stack ++ [seg]) []

/-- Join normalized segments with `/` (`.` when nothing remains). -/
def joinSegs (segs : List Str) : Str :=
  match segs with
  | [] => ".".toList
  | _ => (segs.intersperse "/".toList).flatten

/-- Node `path.join(a, b)` for the relative workspace paths used here. -/
def pathJoin (a b : Str) : Str :=
  joinSegs (normSegs (splitOnPred (fun c => c = '/') a ++ splitOnPred (fun c => c = '/') b))

/-- Node `path.extname` (extension of the basename; a leading dot of a hidden
file is not an extension). -/
def pathExtname (p : Str) : Str :=
  let base := (p.reverse.takeWhile (fun c => c ≠ '/')).reverse
  let a := base.reverse.takeWhile (fun c => c ≠ '.')
  if a.length = base.length then []
  else if a.length + 1 = base.length then []
  else '.' :: a.reverse

/-- The probe order of `resolveImportPath`: source extensions first. -/
def resolveExtensions : List Str :=
  [".ts", ".tsx", ".js", ".jsx", ".mjs", ""].map String.toList

/-- Then per-directory index files. -/
def resolveIndexFiles : List Str :=
  ["/index.ts", "/index.tsx", "/index.js", "/index.jsx"].map String.toList

/-- The two probe loops of `resolveImportPath`: try each source extension on
the candidate, then each directory index file; the first probe contained in
`allFiles` wins. -/
def probeResolve (candidate : Str) (allFiles : List Str) : Option Str :=
  match resolveExtensions.findSome? (fun e =>
      let t := candidate ++ e
      if allFiles.contains t then some t else none) with
  | some t => some t
  | none =>
    resolveIndexFiles.findSome? (fun e =>
      let t := candidate ++ e
      if allFiles.contains t then some t else none)

/-- `resolveImportPath(importSource, importerPath, allFiles, cwd)` (cwd is
only used by the callers for file reads, not for resolution). -/
def resolveImportPath (importSource importerPath : Str) (allFiles : List Str) : Option Str :=
  if !(List.isPrefixOf ".".toList importSource)
      && !(List.isPrefixOf "@/".toList importSource) then none
  else
    let resolvedSource :=
      if List.isPrefixOf "@/".toList importSource then
        "src/".toList ++ importSource.drop 2
      else importSource
    let candidate0 := pathJoin (pathDirname importerPath) resolvedSource
    let currentExt := pathExtname candidate0
    let candidate :=
      if currentExt ≠ [] then candidate0.take (candidate0.length - currentExt.length)
      else candidate0
    probeResolve candidate allFiles

/-- Insertion into the reverse-lookup table: create the key with a singleton
set, or add the dependent to the existing set (JS `Set.add`). -/
def rlInsert : List (Str × List Str) → Str → Str → List (Str × List Str)
  | [], key, dep => [(key, [dep])]
  | e :: rest, key, dep =>
    if e.1 = key then (e.1, if e.2.contains dep then e.2 else e.2 ++ [dep]) :: rest
    else e :: rlInsert rest key dep

/-- The reverse-lookup pass of `buildDependencyGraph`: for every node (one per
distinct input file, in first-occurrence order) resolve each extracted import
and record the importer under the resolved target.  `contents` maps a path to
its file content (absent = unreadable). -/
def buildReverseLookup (files : List Str) (contents : List (Str × Str)) :
    List (Str × List Str) :=
  files.dedup.foldl (fun rl f =>
    (extractImports f ((contents.find? (fun e => e.1 == f)).map (·.2))).foldl
      (fun rl2 imp =>
        match resolveImportPath imp.source f files with
        | some tgt => rlInsert rl2 tgt f
        | none => rl2) rl) []

/-- `Math.round((count / maxDependents) * 100)`: exact rational rounding
(half up) written with Nat floor division so that it evaluates;
`roundRank c m = ⌊(c/m)*100 + 1/2⌋` for `m > 0` (proved below). -/
def roundRank (count maxDependents : Nat) : ℕ :=
  (200 * count + maxDependents) / (2 * maxDependents)

/-- `Math.max(...)` over dependent counts. -/
def maxNat (l : List Nat) : Nat := l.foldl Nat.max 0

/-- `calculateImportRanks(graph)` over the reverse-lookup table. -/
def calculateImportRanks (reverseLookup : List (Str × List Str)) : List (Str × ℕ) :=
  let counts := reverseLookup.map (fun e => (e.1, e.2.length))
  if counts.isEmpty then []
  else
    let maxDependents := maxNat (counts.map (·.2))
    counts.map (fun e => (e.1, roundRank e.2 maxDependents))

/-! ### Properties of the comparator order -/

theorem resultLE_refl (a : SearchResult) : resultLE a a = true := by
  simp [resultLE]

theorem resultLE_total (a b : SearchResult) : resultLE a b = true ∨ resultLE b a = true := by
  simp only [resultLE, Bool.or_eq_true, Bool.and_eq_true, decide_eq_true_eq, beq_iff_eq]
  omega

theorem resultLE_of_not {a b : SearchResult} (h : ¬ resultLE a b = true) :
    resultLE b a = true := by
  rcases resultLE_total a b with h1 | h1
  · exact absurd h1 h
  · exact h1

theorem resultLE_trans {a b c : SearchResult} (h1 : resultLE a b = true)
    (h2 : resultLE b c = true) : resultLE a c = true := by
  simp only [resultLE, Bool.or_eq_true, Bool.and_eq_true, decide_eq_true_eq,
    beq_iff_eq] at h1 h2 ⊢
  omega

theorem not_resultLE_trans {a b c : SearchResult} (h1 : ¬ resultLE a b = true)
    (h2 : ¬ resultLE b c = true) : ¬ resultLE a c = true := by
  intro h3
  exact h1 (resultLE_trans h3 (resultLE_of_not h2))

/-! ### Properties of stable selection -/

theorem pickBest_eq_none {l : List SearchResult} : pickBest l = none ↔ l = [] := by
  cases l with
  | nil => simp [pickBest]
  | cons x xs =>
    simp only [pickBest]
    cases hp : pickBest xs with
    | none => simp
    | some p =>
      obtain ⟨y, ys⟩ := p
      by_cases hle : resultLE x y = true <;> simp [hle]

theorem pickBest_perm {l : List SearchResult} {x : SearchResult}
    {r : List SearchResult} (h : pickBest l = some (x, r)) : l.Perm (x :: r) := by
  induction l generalizing x r with
  | nil => simp [pickBest] at h
  | cons a as ih =>
    simp only [pickBest] at h
    cases hp : pickBest as with
    | none =>
      rw [hp] at h
      simp only [Option.some.injEq, Prod.mk.injEq] at h
      obtain ⟨rfl, rfl⟩ := h
      have : as = [] := pickBest_eq_none.mp hp
      subst this
      exact List.Perm.refl _
    | some p =>
      obtain ⟨y, ys⟩ := p
      rw [hp] at h
      by_cases hle : resultLE a y = true
      · simp only [hle, if_true, Option.some.injEq, Prod.mk.injEq] at h
        obtain ⟨rfl, rfl⟩ := h
        exact List.Perm.refl _
      · simp only [hle, if_false, Option.some.injEq, Prod.mk.injEq] at h
        obtain ⟨rfl, rfl⟩ := h
        exact ((ih hp).cons a).trans (List.Perm.swap x a ys)

theorem pickBest_length {l : List SearchResult} {x : SearchResult}
    {r : List SearchResult} (h : pickBest l = some (x, r)) : r.length + 1 = l.length := by
  have := (pickBest_perm h).length_eq
  simpa using this.symm

theorem pickBest_mem {l : List SearchResult} {x : SearchResult}
    {r : List SearchResult} (h : pickBest l = some (x, r)) : x ∈ l :=
  (pickBest_perm h).mem_iff.mpr (List.mem_cons_self x r)

theorem pickBest_rest_subset {l : List SearchResult} {x : SearchResult}
    {r : List SearchResult} (h : pickBest l = some (x, r)) : ∀ z ∈ r, z ∈ l :=
  fun z hz => (pickBest_perm h).mem_iff.mpr (List.mem_cons_of_mem x hz)

theorem pickBest_le_all {l : List SearchResult} {x : SearchResult}
    {r : List SearchResult} (h : pickBest l = some (x, r)) :
    ∀ z ∈ l, resultLE x z = true := by
  induction l generalizing x r with
  | nil => simp [pickBest] at h
  | cons a as ih =>
    simp only [pickBest] at h
    cases hp : pickBest as with
    | none =>
      rw [hp] at h
      simp only [Option.some.injEq, Prod.mk.injEq] at h
      obtain ⟨rfl, rfl⟩ := h
      have : as = [] := pickBest_eq_none.mp hp
      subst this
      intro z hz
      simp only [List.mem_singleton] at hz
      subst hz
      exact resultLE_refl z
    | some p =>
      obtain ⟨y, ys⟩ := p
      rw [hp] at h
      by_cases hle : resultLE a y = true
      · simp only [hle, if_true, Option.some.injEq, Prod.mk.injEq] at h
        obtain ⟨rfl, rfl⟩ := h
        intro z hz
        rcases List.mem_cons.mp hz with rfl | hz
        · exact resultLE_refl z
        · exact resultLE_trans hle (ih hp z hz)
      · simp only [hle, if_false, Option.some.injEq, Prod.mk.injEq] at h
        obtain ⟨rfl, rfl⟩ := h
        intro z hz
        rcases List.mem_cons.mp hz with rfl | hz
        · exact resultLE_of_not hle
        · exact ih hp z hz

theorem pickBest_cons_of_le {x : SearchResult} {t : List SearchResult}
    (h : ∀ z ∈ t, resultLE x z = true) : pickBest (x :: t) = some (x, t) := by
  simp only [pickBest]
  cases hp : pickBest t with
  | none =>
    have : t = [] := pickBest_eq_none.mp hp
    subst this
    rfl
  | some p =>
    obtain ⟨y, ys⟩ := p
    have : resultLE x y = true := h y (pickBest_mem hp)
    simp [this]

theorem pickBest_append_some {a b : List SearchResult} {x y : SearchResult}
    {r s : List SearchResult} (ha : pickBest a = some (x, r))
    (hb : pickBest b = some (y, s)) :
    pickBest (a ++ b) =
      if resultLE x y = true then some (x, r ++ b) else some (y, a ++ s) := by
  induction a generalizing x r with
  | nil => simp [pickBest] at ha
  | cons z a2 ih =>
    simp only [pickBest] at ha
    cases hp : pickBest a2 with
    | none =>
      have hnil : a2 = [] := pickBest_eq_none.mp hp
      rw [hp] at ha
      simp only [Option.some.injEq, Prod.mk.injEq] at ha
      obtain ⟨rfl, rfl⟩ := ha
      subst hnil
      rw [show ([z] ++ b) = z :: b from rfl]
      simp only [pickBest, hb]
      by_cases hle : resultLE z y = true <;> simp [hle]
    | some p =>
      obtain ⟨u, a3⟩ := p
      simp only [hp] at ha
      by_cases hzu : resultLE z u = true
      · rw [if_pos hzu] at ha
        simp only [Option.some.injEq, Prod.mk.injEq] at ha
        obtain ⟨rfl, rfl⟩ := ha
        by_cases huy : resultLE u y = true
        · have hib : pickBest (a2 ++ b) = some (u, a3 ++ b) := by
            rw [ih hp, if_pos huy]
          have hzy : resultLE z y = true := resultLE_trans hzu huy
          rw [List.cons_append]
          simp only [pickBest, hib]
          simp [hzu, hzy]
        · have hib : pickBest (a2 ++ b) = some (y, a2 ++ s) := by
            rw [ih hp, if_neg huy]
          rw [List.cons_append]
          simp only [pickBest, hib]
          by_cases hzy : resultLE z y = true <;> simp [hzy]
      · rw [if_neg hzu] at ha
        simp only [Option.some.injEq, Prod.mk.injEq] at ha
        obtain ⟨rfl, rfl⟩ := ha
        by_cases huy : resultLE u y = true
        · have hib : pickBest (a2 ++ b) = some (u, a3 ++ b) := by
            rw [ih hp, if_pos huy]
          rw [List.cons_append]
          simp only [pickBest, hib]
          simp [hzu, huy]
        · have hib : pickBest (a2 ++ b) = some (y, a2 ++ s) := by
            rw [ih hp, if_neg huy]
          have hzy : ¬ resultLE z y = true := not_resultLE_trans hzu huy
          rw [List.cons_append]
          simp only [pickBest, hib]
          simp [hzy, huy]

theorem pickBest_append_none {a b : List SearchResult}
    (hb : pickBest b = none) : pickBest (a ++ b) = pickBest a := by
  have : b = [] := pickBest_eq_none.mp hb
  subst this
  simp

/-! ### Properties of the stable sort -/

theorem ssortFuel_of_ge : ∀ (fuel : Nat) (l : List SearchResult), l.length ≤ fuel →
    ssortFuel fuel l = ssortFuel l.length l := by
  intro fuel
  induction fuel with
  | zero =>
    intro l hl
    have : l = [] := List.length_eq_zero.mp (Nat.le_zero.mp hl)
    subst this
    rfl
  | succ n ih =>
    intro l hl
    cases hp : pickBest l with
    | none =>
      have : l = [] := pickBest_eq_none.mp hp
      subst this
      rfl
    | some p =>
      obtain ⟨x, r⟩ := p
      have hlen := pickBest_length hp
      rw [← hlen]
      simp only [ssortFuel, hp]
      have h1 : r.length ≤ n := by omega
      rw [ih r h1]

theorem ssort_cons {l : List SearchResult} {x : SearchResult} {r : List SearchResult}
    (h : pickBest l = some (x, r)) : ssortResults l = x :: ssortResults r := by
  unfold ssortResults
  have hlen := pickBest_length h
  rw [← hlen]
  simp only [ssortFuel, h]

theorem ssort_of_none {l : List SearchResult} (h : pickBest l = none) :
    ssortResults l = [] := by
  have : l = [] := pickBest_eq_none.mp h
  subst this
  rfl

theorem ssort_perm : ∀ (l : List SearchResult), l.Perm (ssortResults l) := by
  intro l
  generalize hn : l.length = n
  induction n generalizing l with
  | zero =>
    have : l = [] := List.length_eq_zero.mp hn
    subst this
    exact List.Perm.refl _
  | succ n ih =>
    cases hp : pickBest l with
    | none =>
      have : l = [] := pickBest_eq_none.mp hp
      subst this
      simp at hn
    | some p =>
      obtain ⟨x, r⟩ := p
      have hlen := pickBest_length hp
      have hr : r.length = n := by omega
      rw [ssort_cons hp]
      exact (pickBest_perm hp).trans ((ih r hr).cons x)

theorem ssort_mem {l : List SearchResult} {z : SearchResult} :
    z ∈ ssortResults l ↔ z ∈ l := ((ssort_perm l).mem_iff).symm

theorem ssort_sorted : ∀ (l : List SearchResult),
    (ssortResults l).Pairwise (fun a b => resultLE a b = true) := by
  intro l
  generalize hn : l.length = n
  induction n generalizing l with
  | zero =>
    have : l = [] := List.length_eq_zero.mp hn
    subst this
    simp [ssortResults, ssortFuel]
  | succ n ih =>
    cases hp : pickBest l with
    | none =>
      have : l = [] := pickBest_eq_none.mp hp
      subst this
      simp at hn
    | some p =>
      obtain ⟨x, r⟩ := p
      have hlen := pickBest_length hp
      have hr : r.length = n := by omega
      rw [ssort_cons hp]
      refine List.Pairwise.cons ?_ (ih r hr)
      intro z hz
      exact pickBest_le_all hp z (pickBest_rest_subset hp z (ssort_mem.mp hz))

/-- Replacing a middle segment by its sorted `j`-prefix does not change the
sorted `k`-prefix of the whole, for `k ≤ j`: the heart of the shard-merge
correctness argument. -/
theorem take_ssort_mid : ∀ (k j : ℕ), k ≤ j → ∀ (a b c : List SearchResult),
    (ssortResults (a ++ ((ssortResults b).take j ++ c))).take k =
    (ssortResults (a ++ (b ++ c))).take k := by
  intro k
  induction k with
  | zero => intro j hj a b c; simp
  | succ k ih =>
    intro j hj a b c
    cases hpb : pickBest b with
    | none =>
      have hb0 : b = [] := pickBest_eq_none.mp hpb
      subst hb0
      rw [ssort_of_none hpb]
      simp
    | some p =>
      obtain ⟨v, b2⟩ := p
      obtain ⟨j0, rfl⟩ : ∃ j0, j = j0 + 1 := ⟨j - 1, by omega⟩
      have hssb : ssortResults b = v :: ssortResults b2 := ssort_cons hpb
      have htk : (ssortResults b).take (j0 + 1) = v :: (ssortResults b2).take j0 := by
        rw [hssb]; rfl
      have hvle : ∀ z ∈ b, resultLE v z = true := pickBest_le_all hpb
      have hsub : ∀ z ∈ (ssortResults b2).take j0, z ∈ b := by
        intro z hz
        exact pickBest_rest_subset hpb z (ssort_mem.mp (List.take_subset _ _ hz))
      have hpbβ : pickBest (v :: (ssortResults b2).take j0) =
          some (v, (ssortResults b2).take j0) :=
        pickBest_cons_of_le (fun z hz => hvle z (hsub z hz))
      rw [htk]
      cases hpc : pickBest c with
      | none =>
        have hc0 : c = [] := pickBest_eq_none.mp hpc
        subst hc0
        simp only [List.append_nil]
        cases hpa : pickBest a with
        | none =>
          have ha0 : a = [] := pickBest_eq_none.mp hpa
          subst ha0
          simp only [List.nil_append]
          rw [ssort_cons hpbβ, ssort_cons hpb, List.take_succ_cons, List.take_succ_cons]
          have h1 := ih j0 (by omega) [] b2 []
          simp only [List.nil_append, List.append_nil] at h1
          rw [h1]
        | some q =>
          obtain ⟨u, a2⟩ := q
          by_cases huv : resultLE u v = true
          · have hX : pickBest (a ++ b) = some (u, a2 ++ b) := by
              rw [pickBest_append_some hpa hpb, if_pos huv]
            have hY : pickBest (a ++ (v :: (ssortResults b2).take j0)) =
                some (u, a2 ++ (v :: (ssortResults b2).take j0)) := by
              rw [pickBest_append_some hpa hpbβ, if_pos huv]
            rw [ssort_cons hX, ssort_cons hY, List.take_succ_cons, List.take_succ_cons]
            have h1 := ih (j0 + 1) (by omega) a2 b []
            rw [htk] at h1
            simp only [List.append_nil] at h1
            rw [h1]
          · have hX : pickBest (a ++ b) = some (v, a ++ b2) := by
              rw [pickBest_append_some hpa hpb, if_neg huv]
            have hY : pickBest (a ++ (v :: (ssortResults b2).take j0)) =
                some (v, a ++ (ssortResults b2).take j0) := by
              rw [pickBest_append_some hpa hpbβ, if_neg huv]
            rw [ssort_cons hX, ssort_cons hY, List.take_succ_cons, List.take_succ_cons]
            have h1 := ih j0 (by omega) a b2 []
            simp only [List.append_nil] at h1
            rw [h1]
      | some qc =>
        obtain ⟨w, c2⟩ := qc
        by_cases hvw : resultLE v w = true
        · have hBX : pickBest (b ++ c) = some (v, b2 ++ c) := by
            rw [pickBest_append_some hpb hpc, if_pos hvw]
          have hBY : pickBest ((v :: (ssortResults b2).take j0) ++ c) =
              some (v, (ssortResults b2).take j0 ++ c) := by
            rw [pickBest_append_some hpbβ hpc, if_pos hvw]
          cases hpa : pickBest a with
          | none =>
            have ha0 : a = [] := pickBest_eq_none.mp hpa
            subst ha0
            simp only [List.nil_append]
            rw [ssort_cons hBX, ssort_cons hBY, List.take_succ_cons, List.take_succ_cons]
            have h1 := ih j0 (by omega) [] b2 c
            simp only [List.nil_append] at h1
            rw [h1]
          | some qa =>
            obtain ⟨u, a2⟩ := qa
            by_cases hub : resultLE u v = true
            · have hX : pickBest (a ++ (b ++ c)) = some (u, a2 ++ (b ++ c)) := by
                rw [pickBest_append_some hpa hBX, if_pos hub]
              have hY : pickBest (a ++ ((v :: (ssortResults b2).take j0) ++ c)) =
                  some (u, a2 ++ ((v :: (ssortResults b2).take j0) ++ c)) := by
                rw [pickBest_append_some hpa hBY, if_pos hub]
              rw [ssort_cons hX, ssort_cons hY, List.take_succ_cons, List.take_succ_cons]
              have h1 := ih (j0 + 1) (by omega) a2 b c
              rw [htk] at h1
              rw [h1]
            · have hX : pickBest (a ++ (b ++ c)) = some (v, a ++ (b2 ++ c)) := by
                rw [pickBest_append_some hpa hBX, if_neg hub]
              have hY : pickBest (a ++ ((v :: (ssortResults b2).take j0) ++ c)) =
                  some (v, a ++ ((ssortResults b2).take j0 ++ c)) := by
                rw [pickBest_append_some hpa hBY, if_neg hub]
              rw [ssort_cons hX, ssort_cons hY, List.take_succ_cons, List.take_succ_cons]
              have h1 := ih j0 (by omega) a b2 c
              rw [h1]
        · have hBX : pickBest (b ++ c) = some (w, b ++ c2) := by
            rw [pickBest_append_some hpb hpc, if_neg hvw]
          have hBY : pickBest ((v :: (ssortResults b2).take j0) ++ c) =
              some (w, (v :: (ssortResults b2).take j0) ++ c2) := by
            rw [pickBest_append_some hpbβ hpc, if_neg hvw]
          cases hpa : pickBest a with
          | none =>
            have ha0 : a = [] := pickBest_eq_none.mp hpa
            subst ha0
            simp only [List.nil_append]
            rw [ssort_cons hBX, ssort_cons hBY, List.take_succ_cons, List.take_succ_cons]
            have h1 := ih (j0 + 1) (by omega) [] b c2
            rw [htk] at h1
            simp only [List.nil_append] at h1
            rw [h1]
          | some qa =>
            obtain ⟨u, a2⟩ := qa
            by_cases hub : resultLE u w = true
            · have hX : pickBest (a ++ (b ++ c)) = some (u, a2 ++ (b ++ c)) := by
                rw [pickBest_append_some hpa hBX, if_pos hub]
              have hY : pickBest (a ++ ((v :: (ssortResults b2).take j0) ++ c)) =
                  some (u, a2 ++ ((v :: (ssortResults b2).take j0) ++ c)) := by
                rw [pickBest_append_some hpa hBY, if_pos hub]
              rw [ssort_cons hX, ssort_cons hY, List.take_succ_cons, List.take_succ_cons]
              have h1 := ih (j0 + 1) (by omega) a2 b c
              rw [htk] at h1
              rw [h1]
            · have hX : pickBest (a ++ (b ++ c)) = some (w, a ++ (b ++ c2)) := by
                rw [pickBest_append_some hpa hBX, if_neg hub]
              have hY : pickBest (a ++ ((v :: (ssortResults b2).take j0) ++ c)) =
                  some (w, a ++ ((v :: (ssortResults b2).take j0) ++ c2)) := by
                rw [pickBest_append_some hpa hBY, if_neg hub]
              rw [ssort_cons hX, ssort_cons hY, List.take_succ_cons, List.take_succ_cons]
              have h1 := ih (j0 + 1) (by omega) a b c2
              rw [htk] at h1
              rw [h1]

/-- Sorting the concatenation of per-shard sorted `k`-prefixes and truncating
to `k` equals sorting the concatenation of the raw shards and truncating. -/
theorem take_ssort_shards (k : ℕ) :
    ∀ (As : List (List SearchResult)) (pre : List SearchResult),
      (ssortResults (pre ++ (As.map (fun l => (ssortResults l).take k)).flatten)).take k =
      (ssortResults (pre ++ As.flatten)).take k := by
  intro As
  induction As with
  | nil => intro pre; rfl
  | cons b As ih =>
    intro pre
    simp only [List.map_cons, List.flatten_cons]
    calc (ssortResults (pre ++ ((ssortResults b).take k ++
            (As.map (fun l => (ssortResults l).take k)).flatten))).take k
        = (ssortResults ((pre ++ (ssortResults b).take k) ++
            (As.map (fun l => (ssortResults l).take k)).flatten)).take k := by
          rw [List.append_assoc]
      _ = (ssortResults ((pre ++ (ssortResults b).take k) ++ As.flatten)).take k :=
          ih (pre ++ (ssortResults b).take k)
      _ = (ssortResults (pre ++ ((ssortResults b).take k ++ As.flatten))).take k := by
          rw [List.append_assoc]
      _ = (ssortResults (pre ++ (b ++ As.flatten))).take k :=
          take_ssort_mid k k (Nat.le_refl k) pre b As.flatten

/-- `engineSearch` in the non-degenerate case is sort-filter-truncate over the
per-path scores. -/
theorem engineSearch_eq_scored (paths : List Str) (q : Str) (k : Nat) (hq : ¬ q = [])
    (ht : ¬ splitWs (strLower (normalizeSeparators (trimStr q))) = []) :
    engineSearch paths q k =
      (ssortResults ((paths.map mkEntry).filterMap
        (resultOfEntry (splitWs (strLower (normalizeSeparators (trimStr q))))
          (strLower (normalizeSeparators (trimStr q))) (trimStr q)))).take k := by
  simp [engineSearch, searchIndex, buildIndex, hq, ht]

theorem engineSearch_nil_of_terms (paths : List Str) (q : Str) (k : Nat)
    (ht : splitWs (strLower (normalizeSeparators (trimStr q))) = []) :
    engineSearch paths q k = [] := by
  by_cases hq : q = []
  · subst hq; rfl
  · simp [engineSearch, searchIndex, hq, ht]

/-- Scoring distributes over shard concatenation. -/
theorem scored_flatten (F : FileEntry → Option SearchResult) :
    ∀ (chunks : List (List Str)),
      ((chunks.flatten).map mkEntry).filterMap F =
      (chunks.map (fun c => (c.map mkEntry).filterMap F)).flatten := by
  intro chunks
  induction chunks with
  | nil => rfl
  | cons c rest ih =>
    simp only [List.flatten_cons, List.map_cons, List.map_append,
      List.filterMap_append, ih]

/-- Skipping empty shards does not change the concatenation. -/
theorem flatten_filter_nonempty {α : Type} :
    ∀ (L : List (List α)), (L.filter (fun c => !c.isEmpty)).flatten = L.flatten := by
  intro L
  induction L with
  | nil => rfl
  | cons c rest ih =>
    cases c with
    | nil => simpa using ih
    | cons x xs => simpa using congrArg (fun t => x :: xs ++ t) ih

/-- Contiguous equal-size slices cover the whole list when `w * cs` bounds its
length. -/
theorem flatten_slices {α : Type} :
    ∀ (w : ℕ) (cs : ℕ) (l : List α), l.length ≤ w * cs →
      ((List.range w).map (fun i => (l.drop (i * cs)).take cs)).flatten = l := by
  intro w
  induction w with
  | zero =>
    intro cs l hl
    simp only [Nat.zero_mul, Nat.le_zero] at hl
    simp [List.length_eq_zero.mp hl]
  | succ w ih =>
    intro cs l hl
    rw [List.range_succ_eq_map]
    simp only [List.map_cons, List.map_map, List.flatten_cons, Nat.zero_mul,
      List.drop_zero]
    have hcomp : ((fun i => (l.drop (i * cs)).take cs) ∘ Nat.succ) =
        (fun i => (((l.drop cs).drop (i * cs)).take cs)) := by
      funext i
      simp only [Function.comp_apply, List.drop_drop]
      congr 1
      congr 1
      rw [Nat.succ_mul]
      ring
    rw [hcomp]
    rw [ih cs (l.drop cs) (by
      rw [List.length_drop]
      have : l.length ≤ w * cs + cs := by
        have h2 : (w + 1) * cs = w * cs + cs := by ring
        omega
      omega)]
    exact List.take_append_drop cs l

/-- The `ceil` chunk size of `initWorkers` covers the file list. -/
theorem flatten_codeChunks (files : List Str) (w : ℕ) (hw : 1 ≤ w) :
    (codeChunks files w).flatten = files := by
  unfold codeChunks
  apply flatten_slices
  obtain ⟨Q, hQ⟩ : ∃ Q, (files.length + w - 1) / w = Q := ⟨_, rfl⟩
  rw [hQ]
  have hdm := Nat.div_add_mod (files.length + w - 1) w
  rw [hQ] at hdm
  have hmlt := Nat.mod_lt (files.length + w - 1) (show 0 < w by omega)
  generalize hP : w * Q = P at hdm ⊢
  omega

/-- Claim C1: for every file list, query and limit, the parallel orchestrator
(shard each worker with the engine over its chunk, collect each shard's
locally sorted top-`limit`, merge with the same sort rule and truncate)
returns exactly the results of a single engine over the unsharded index —
first for an arbitrary contiguous sharding (any chunk list, via its
concatenation), then for the actual `ParallelMantic` construction
(ceil-sized chunks for `max 2 (cpuCount-1)` workers, empty chunks skipped).
In particular per-shard truncation at `limit` never drops an item of the
global top-`limit`. -/
theorem claim_C1_parallel_single_equiv :
    (∀ (chunks : List (List Str)) (q : Str) (k : Nat),
        parallelChunksSearch chunks q k = engineSearch chunks.flatten q k)
    ∧ (∀ (cpuCount : Nat) (files : List Str) (q : Str) (k : Nat),
        parallelManticSearch cpuCount files q k = engineSearch files q k) := by
  have hmain : ∀ (chunks : List (List Str)) (q : Str) (k : Nat),
      parallelChunksSearch chunks q k = engineSearch chunks.flatten q k := by
    intro chunks q k
    by_cases hq : q = []
    · subst hq
      simp [parallelChunksSearch, engineSearch, searchIndex]
    · unfold parallelChunksSearch
      rw [if_neg hq]
      by_cases ht : splitWs (strLower (normalizeSeparators (trimStr q))) = []
      · have h2 : chunks.map (fun c => engineSearch c q k) =
            chunks.map (fun _ => ([] : List SearchResult)) := by
          simp only [engineSearch_nil_of_terms _ q k ht]
        rw [h2, engineSearch_nil_of_terms _ q k ht]
        have h3 : (chunks.map (fun _ => ([] : List SearchResult))).flatten = [] := by
          induction chunks with
          | nil => rfl
          | cons c cs ih => simpa using ih
        rw [h3]
        simp [ssortResults, ssortFuel]
      · rw [engineSearch_eq_scored chunks.flatten q k hq ht]
        rw [scored_flatten (resultOfEntry (splitWs (strLower (normalizeSeparators (trimStr q))))
          (strLower (normalizeSeparators (trimStr q))) (trimStr q)) chunks]
        have h2 : chunks.map (fun c => engineSearch c q k) =
            (chunks.map (fun c => (c.map mkEntry).filterMap
              (resultOfEntry (splitWs (strLower (normalizeSeparators (trimStr q))))
                (strLower (normalizeSeparators (trimStr q))) (trimStr q)))).map
              (fun l => (ssortResults l).take k) := by
          rw [List.map_map]
          apply List.map_congr_left
          intro c _
          exact engineSearch_eq_scored c q k hq ht
        rw [h2]
        have h4 := take_ssort_shards k
          (chunks.map (fun c => (c.map mkEntry).filterMap
            (resultOfEntry (splitWs (strLower (normalizeSeparators (trimStr q))))
              (strLower (normalizeSeparators (trimStr q))) (trimStr q)))) []
        simp only [List.nil_append] at h4
        exact h4
  refine ⟨hmain, ?_⟩
  intro cpu files q k
  unfold parallelManticSearch initWorkerChunks
  rw [hmain, flatten_filter_nonempty,
    flatten_codeChunks files (max 2 (cpu - 1)) (by omega)]

theorem mkEntry_original (p : Str) : (mkEntry p).original = p := rfl

/-- Claim C6: `search` returns only records with positive score, sorted by
score descending with ties broken by ascending path length, truncated to at
most `limit` results, every result drawn from the indexed paths; and a
result's matchType is `exact` iff its score exceeds the fixed threshold 150,
else `fuzzy`. -/
theorem claim_C6_search_contract :
    ∀ (paths : List Str) (q : Str) (k : Nat),
      (engineSearch paths q k).length ≤ k
      ∧ (engineSearch paths q k).Pairwise (fun x y =>
          y.score < x.score ∨ (x.score = y.score ∧ x.file.length ≤ y.file.length))
      ∧ ∀ r ∈ engineSearch paths q k,
          0 < r.score ∧ (r.matchType = MatchType.exact ↔ 150 < r.score)
            ∧ r.file ∈ paths := by
  intro paths q k
  by_cases hq : q = []
  · subst hq
    simp [engineSearch, searchIndex]
  · by_cases ht : splitWs (strLower (normalizeSeparators (trimStr q))) = []
    · rw [engineSearch_nil_of_terms paths q k ht]
      simp
    · rw [engineSearch_eq_scored paths q k hq ht]
      refine ⟨List.length_take_le _ _, ?_, ?_⟩
      · have hs := ssort_sorted ((paths.map mkEntry).filterMap
          (resultOfEntry (splitWs (strLower (normalizeSeparators (trimStr q))))
            (strLower (normalizeSeparators (trimStr q))) (trimStr q)))
        have hp := List.Pairwise.sublist (List.take_sublist k _) hs
        refine hp.imp ?_
        intro a b hab
        simp only [resultLE, Bool.or_eq_true, Bool.and_eq_true, decide_eq_true_eq,
          beq_iff_eq] at hab
        exact hab
      · intro r hr
        have hr3 : r ∈ (paths.map mkEntry).filterMap
            (resultOfEntry (splitWs (strLower (normalizeSeparators (trimStr q))))
              (strLower (normalizeSeparators (trimStr q))) (trimStr q)) :=
          ssort_mem.mp (List.take_subset k _ hr)
        obtain ⟨e, he, hre⟩ := List.mem_filterMap.mp hr3
        obtain ⟨p, hp, rfl⟩ := List.mem_map.mp he
        unfold resultOfEntry at hre
        by_cases hpos : scoreEntry (mkEntry p)
            (splitWs (strLower (normalizeSeparators (trimStr q))))
            (strLower (normalizeSeparators (trimStr q))) (trimStr q) > 0
        · rw [if_pos hpos] at hre
          obtain rfl := (Option.some.injEq _ _).mp hre
          refine ⟨hpos, ?_, ?_⟩
          · by_cases h150 : scoreEntry (mkEntry p)
                (splitWs (strLower (normalizeSeparators (trimStr q))))
                (strLower (normalizeSeparators (trimStr q))) (trimStr q) > 150
            · simpa [h150] using h150
            · simp only [if_neg h150]
              constructor
              · intro hcontra
                exact absurd hcontra (by simp)
              · intro hcontra
                exact absurd hcontra h150
          · rw [mkEntry_original]
            exact hp
        · rw [if_neg hpos] at hre
          exact absurd hre (by simp)

/-- Witness for C6 at a concrete search. -/
theorem claim_C6_witness :
    (0 : Int) < 8210
    ∧ (MatchType.exact = MatchType.exact ↔ (150 : Int) < 8210)
    ∧ "gpu/init.ts".toList ∈ ["gpu/init.ts".toList] :=
  (claim_C6_search_contract ["gpu/init.ts".toList] "gpu".toList 5).2.2
    (SearchResult.mk "gpu/init.ts".toList 8210 MatchType.exact)
    (by decide)

/-- Counterexample to claim C2: with one shard succeeding and one shard's
engine call throwing, the search call still resolves (the worker catches the
error and posts an empty list); the successful result silently omits the
failing shard. -/
theorem claim_C2_counterexample :
    parallelSearchOutcome
        [Except.ok [SearchResult.mk "a.ts".toList 100 MatchType.fuzzy],
         Except.error "boom"] "q".toList 5 =
      Except.ok [SearchResult.mk "a.ts".toList 100 MatchType.fuzzy]
    ∧ Except.error "boom" ∈
        ([Except.ok [SearchResult.mk "a.ts".toList 100 MatchType.fuzzy],
          Except.error "boom"] : List (Except String (List SearchResult))) := by
  constructor
  · rfl
  · exact List.Mem.tail _ (List.Mem.head _)

/-- Claim C2 amended: an error thrown while a worker handles a search message
never rejects the call — the worker's catch converts it into an empty shard
result and the orchestrator resolves with the merged remaining results (only
worker-level failures outside the handler reject). -/
theorem claim_C2_amended :
    (∀ (outcomes : List (Except String (List SearchResult))) (q : Str) (k : Nat),
        ∃ rs, parallelSearchOutcome outcomes q k = Except.ok rs)
    ∧ (∀ e : String, workerHandleMessage (Except.error e) = [])
    ∧ (∀ (outcomes : List (Except String (List SearchResult))) (q : Str) (k : Nat),
        q ≠ [] →
        parallelSearchOutcome outcomes q k =
          Except.ok ((ssortResults ((outcomes.map workerHandleMessage).flatten)).take k)) := by
  refine ⟨?_, fun e => rfl, ?_⟩
  · intro outcomes q k
    unfold parallelSearchOutcome
    by_cases hq : q = []
    · exact ⟨[], by rw [if_pos hq]⟩
    · exact ⟨_, by rw [if_neg hq]⟩
  · intro outcomes q k hq
    unfold parallelSearchOutcome
    rw [if_neg hq]

/-- Witness for the amended C2 at a concrete erroring shard. -/
theorem claim_C2_witness :
    parallelSearchOutcome [Except.error "x"] "q".toList 3 =
      Except.ok ((ssortResults (([(Except.error "x" : Except String (List SearchResult))].map
        workerHandleMessage).flatten)).take 3) :=
  claim_C2_amended.2.2 [Except.error "x"] "q".toList 3 (by decide)

/-- Counterexample to claim C3: on the spec's own example (query `foo.py`
against record `foo.ts`) the score is 5000, not 0 — the exact
filename-without-extension tier fires before the extension filter. -/
theorem claim_C3_counterexample :
    scoreEntry (mkEntry "foo.ts".toList) ["foo.py".toList] "foo.py".toList
        "foo.py".toList = 5000
    ∧ engineSearch ["foo.ts".toList] "foo.py".toList 10 =
        [SearchResult.mk "foo.ts".toList 5000 MatchType.exact]
    ∧ (5000 : Int) ≠ 0 := by decide

/-- Claim C3 amended: the extension disqualification yields exactly 0, but
only when none of the three earlier exact-match tiers (exact filename, exact
normalized filename, exact filename-without-extension) fires. -/
theorem claim_C3_amended :
    ∀ (entry : FileEntry) (terms : List Str) (fullQueryLower originalQuery m : Str),
      extQueryMatch originalQuery = some m →
      entry.ext ≠ '.' :: strLower m →
      entry.fileNameLower ≠ fullQueryLower →
      entry.fileNameNormalized ≠ strLower (normalizeSeparators originalQuery) →
      strLower (stripLastExt entry.fileName) ≠ stripLastExt fullQueryLower →
      scoreEntry entry terms fullQueryLower originalQuery = 0 := by
  intro entry terms fql oq m hm hext h1 h2 h3
  simp only [scoreEntry]
  rw [if_neg h1, if_neg h2, if_neg h3]
  simp only [hm]
  rw [if_pos hext]

/-- Witness for the amended C3: query `foo.py` against `bar.ts` scores 0. -/
theorem claim_C3_witness :
    scoreEntry (mkEntry "bar.ts".toList) ["foo.py".toList] "foo.py".toList
      "foo.py".toList = 0 :=
  claim_C3_amended (mkEntry "bar.ts".toList) ["foo.py".toList] "foo.py".toList
    "foo.py".toList "py".toList (by decide) (by decide) (by decide) (by decide)
    (by decide)

/-- Counterexample to claim C4: on the spec's own example
(query `download_manager.cc` against `src/net/download_manager.cc`) the score
is 9000 (normalized-filename tier), not the maximal 10000 — separator
normalization turns the query into `download manager.cc` before the
case-insensitive filename comparison. -/
theorem claim_C4_counterexample :
    engineSearch ["src/net/download_manager.cc".toList] "download_manager.cc".toList 10 =
      [SearchResult.mk "src/net/download_manager.cc".toList 9000 MatchType.exact]
    ∧ scoreEntry (mkEntry "src/net/download_manager.cc".toList)
        ["download".toList, "manager.cc".toList] "download manager.cc".toList
        "download_manager.cc".toList = 9000
    ∧ (9000 : Int) ≠ 10000 := by decide

/-- Claim C4 amended: the fixed maximal score 10000 is returned exactly when
the lowercased filename equals the normalized lowercased query (what `search`
passes as the full query), regardless of any other term; when they differ but
the normalized filename matches the normalized query, the near-maximal 9000
is returned instead — which is what happens on filenames with separators. -/
theorem claim_C4_amended :
    ∀ (entry : FileEntry) (terms : List Str) (fullQueryLower originalQuery : Str),
      (entry.fileNameLower = fullQueryLower →
        scoreEntry entry terms fullQueryLower originalQuery = 10000)
      ∧ (entry.fileNameLower ≠ fullQueryLower →
          entry.fileNameNormalized = strLower (normalizeSeparators originalQuery) →
          scoreEntry entry terms fullQueryLower originalQuery = 9000) := by
  intro entry terms fql oq
  constructor
  · intro h
    simp only [scoreEntry]
    rw [if_pos h]
  · intro h1 h2
    simp only [scoreEntry]
    rw [if_neg h1, if_pos h2]

/-- Witness for the amended C4 at the spec's example. -/
theorem claim_C4_witness :
    scoreEntry (mkEntry "src/net/download_manager.cc".toList)
      ["download".toList, "manager.cc".toList] "download manager.cc".toList
      "download_manager.cc".toList = 9000 :=
  (claim_C4_amended (mkEntry "src/net/download_manager.cc".toList)
    ["download".toList, "manager.cc".toList] "download manager.cc".toList
    "download_manager.cc".toList).2 (by decide) (by decide)

/-- Counterexample to claim C7: appending the matching term `init` to the
query `gpu` drops the score of `gpu/init.ts` from 8210 to 230 (the
single-short-term directory boost is lost), and appending the non-matching
term `zzzz` to `a b` raises the score of `a/b/c/x.ts` from 100 to 150 (the
three-term path-sequence bonus becomes available). -/
theorem claim_C7_counterexample :
    engineSearch ["gpu/init.ts".toList] "gpu".toList 10 =
        [SearchResult.mk "gpu/init.ts".toList 8210 MatchType.exact]
    ∧ engineSearch ["gpu/init.ts".toList] "gpu init".toList 10 =
        [SearchResult.mk "gpu/init.ts".toList 230 MatchType.exact]
    ∧ strIncludes (mkEntry "gpu/init.ts".toList).normalized "init".toList = true
    ∧ (230 : Int) < 8210
    ∧ engineSearch ["a/b/c/x.ts".toList] "a b".toList 10 =
        [SearchResult.mk "a/b/c/x.ts".toList 100 MatchType.fuzzy]
    ∧ engineSearch ["a/b/c/x.ts".toList] "a b zzzz".toList 10 =
        [SearchResult.mk "a/b/c/x.ts".toList 150 MatchType.fuzzy]
    ∧ strIncludes (mkEntry "a/b/c/x.ts".toList).normalized "zzzz".toList = false
    ∧ (100 : Int) < 150 := by decide

/-- Claim C7 amended: monotonicity holds for the soft-AND accumulation stage
in isolation — appending a term contained in the normalized path adds exactly
+10 and appending a missing term adds exactly −50 — but not for the full
`scoreEntry`, whose other stages depend on the term count. -/
theorem claim_C7_amended :
    ∀ (normalized : Str) (ts : List Str) (t : Str),
      (strIncludes normalized t = true →
        softAndScore normalized (ts ++ [t]) = softAndScore normalized ts + 10)
      ∧ (strIncludes normalized t = false →
          softAndScore normalized (ts ++ [t]) = softAndScore normalized ts - 50) := by
  intro n ts t
  induction ts with
  | nil =>
    constructor <;> intro h <;> simp [softAndScore, h]
  | cons a as ih =>
    constructor <;> intro h
    · have h2 := ih.1 h
      simp only [List.cons_append, softAndScore, List.append_eq]
      omega
    · have h2 := ih.2 h
      simp only [List.cons_append, softAndScore, List.append_eq]
      omega

/-- Witness for the amended C7 at concrete terms. -/
theorem claim_C7_witness :
    softAndScore "abc".toList (["ab".toList] ++ ["bc".toList]) =
      softAndScore "abc".toList ["ab".toList] + 10 :=
  (claim_C7_amended "abc".toList ["ab".toList] "bc".toList).1 (by decide)

theorem noLU_tail {c : Char} {X : Str} (h : noLU (c :: X) = true) : noLU X = true := by
  cases X with
  | nil => rfl
  | cons d t =>
    simp only [noLU, Bool.and_eq_true] at h
    exact h.2

theorem noLU_head {c d : Char} {t : Str} (h : noLU (c :: d :: t) = true) :
    (isLowerAZ c && isUpperAZ d) = false := by
  simp only [noLU, Bool.and_eq_true, Bool.not_eq_true'] at h
  exact h.1

theorem noLU_cons (c : Char) {Y : Str} (hY : noLU Y = true)
    (hhead : ∀ d t, Y = d :: t → (isLowerAZ c && isUpperAZ d) = false) :
    noLU (c :: Y) = true := by
  cases Y with
  | nil => rfl
  | cons d t =>
    simp only [noLU, Bool.and_eq_true, Bool.not_eq_true']
    exact ⟨hhead d t rfl, hY⟩

theorem noLU_cons_not_lower {c : Char} (h : isLowerAZ c = false) {Y : Str}
    (hY : noLU Y = true) : noLU (c :: Y) = true :=
  noLU_cons c hY (fun d t _ => by rw [h, Bool.false_and])

theorem camelSplit_head (b : Char) (r : Str) : ∃ t, camelSplit (b :: r) = b :: t := by
  cases r with
  | nil => exact ⟨[], rfl⟩
  | cons c cs =>
    simp only [camelSplit]
    split
    · exact ⟨_, rfl⟩
    · exact ⟨_, rfl⟩

theorem camelSplit_noLU : ∀ s : Str, noLU (camelSplit s) = true := by
  intro s
  induction s with
  | nil => rfl
  | cons a tail ih =>
    cases tail with
    | nil => rfl
    | cons b rest =>
      obtain ⟨t, ht⟩ := camelSplit_head b rest
      rw [ht] at ih
      by_cases h : (isLowerAZ a && isUpperAZ b) = true
      · simp only [camelSplit, if_pos h, ht]
        refine noLU_cons a ?_ ?_
        · exact noLU_cons_not_lower (show isLowerAZ ' ' = false from rfl) ih
        · intro d t2 hdt
          injection hdt with h1 h2
          subst h1
          rw [show isUpperAZ ' ' = false from rfl, Bool.and_false]
      · have hf : (isLowerAZ a && isUpperAZ b) = false := by
          revert h
          cases isLowerAZ a && isUpperAZ b <;> simp
        simp only [camelSplit, if_neg h, ht]
        refine noLU_cons a ih ?_
        intro d t2 hdt
        injection hdt with h1 h2
        subst h1
        exact hf

theorem camelSplit_of_noLU : ∀ s : Str, noLU s = true → camelSplit s = s := by
  intro s
  induction s with
  | nil => intro _; rfl
  | cons a tail ih =>
    cases tail with
    | nil => intro _; rfl
    | cons b rest =>
      intro h
      have hf := noLU_head h
      simp only [camelSplit, hf, if_neg (by simp : ¬ (false = true))]
      rw [ih (noLU_tail h)]

theorem collapseGo_idem : ∀ s : Str,
    collapseGo false (collapseGo false s) = collapseGo false s
    ∧ collapseGo true (collapseGo true s) = collapseGo true s := by
  intro s
  induction s with
  | nil => exact ⟨rfl, rfl⟩
  | cons c rest ih =>
    by_cases hc : isSepCh c = true
    · constructor
      · simp only [collapseGo, hc, if_true, Bool.false_eq_true, if_false]
        simp only [show isSepCh ' ' = true from rfl, if_true]
        rw [ih.2]
      · simp only [collapseGo, hc, if_true]
        exact ih.2
    · have hc' : isSepCh c = false := by
        revert hc
        cases isSepCh c <;> simp
      constructor
      · simp only [collapseGo, hc', Bool.false_eq_true, if_false]
        rw [ih.1]
      · simp only [collapseGo, hc', Bool.false_eq_true, if_false]
        rw [ih.1]

theorem collapseGo_noLU : ∀ s : Str, noLU s = true →
    ∀ f, noLU (collapseGo f s) = true := by
  intro s
  induction s with
  | nil =>
    intro _ f
    cases f <;> rfl
  | cons c rest ih =>
    intro h f
    by_cases hc : isSepCh c = true
    · cases f
      · simp only [collapseGo, hc, if_true, Bool.false_eq_true, if_false]
        exact noLU_cons_not_lower (show isLowerAZ ' ' = false from rfl)
          (ih (noLU_tail h) true)
      · simp only [collapseGo, hc, if_true]
        exact ih (noLU_tail h) true
    · have hc' : isSepCh c = false := by
        revert hc
        cases isSepCh c <;> simp
      have hout : collapseGo f (c :: rest) = c :: collapseGo false rest := by
        cases f <;> simp only [collapseGo, hc', Bool.false_eq_true, if_false]
      rw [hout]
      cases rest with
      | nil => rfl
      | cons d t =>
        by_cases hd : isSepCh d = true
        · have hrest : collapseGo false (d :: t) = ' ' :: collapseGo true t := by
            simp only [collapseGo, hd, if_true, Bool.false_eq_true, if_false]
          refine noLU_cons c (Y := collapseGo false (d :: t)) (ih (noLU_tail h) false) ?_
          intro e t2 he
          rw [hrest] at he
          injection he with h1 h2
          subst h1
          rw [show isUpperAZ ' ' = false from rfl, Bool.and_false]
        · have hd' : isSepCh d = false := by
            revert hd
            cases isSepCh d <;> simp
          have hrest : collapseGo false (d :: t) = d :: collapseGo false t := by
            simp only [collapseGo, hd', Bool.false_eq_true, if_false]
          refine noLU_cons c (Y := collapseGo false (d :: t)) (ih (noLU_tail h) false) ?_
          intro e t2 he
          rw [hrest] at he
          injection he with h1 h2
          subst h1
          exact noLU_head h

/-- Counterexample to claim C5: `normalizeSeparators` does not lowercase —
on `ScriptController` it yields `Script Controller`, not `script controller`
(the equality chain of the claim fails at its first link). -/
theorem claim_C5_counterexample :
    normalizeSeparators "ScriptController".toList = "Script Controller".toList
    ∧ "Script Controller".toList ≠ "script controller".toList
    ∧ normalizeSeparators "script_controller".toList = "script controller".toList := by
  decide

/-- Claim C5 amended: `normalizeSeparators` is idempotent, and the claimed
case-folding equalities hold once lowercasing is applied outside the function,
as its callers do: lowercasing the normalization of `ScriptController` gives
`script controller`, which is also the normalization of `script_controller`. -/
theorem claim_C5_amended :
    (∀ s : Str, normalizeSeparators (normalizeSeparators s) = normalizeSeparators s)
    ∧ strLower (normalizeSeparators "ScriptController".toList) = "script controller".toList
    ∧ normalizeSeparators "script_controller".toList = "script controller".toList := by
  refine ⟨?_, by decide, by decide⟩
  intro s
  show collapseSeps (camelSplit (collapseSeps (camelSplit s))) =
    collapseSeps (camelSplit s)
  unfold collapseSeps
  rw [camelSplit_of_noLU _ (collapseGo_noLU _ (camelSplit_noLU s) false)]
  exact (collapseGo_idem _).1

theorem findSome_probe_mem {fs : List Str} {cand t : Str} :
    ∀ exts : List Str,
      List.findSome? (fun e =>
        let t2 := cand ++ e
        if fs.contains t2 = true then some t2 else none) exts = some t →
      t ∈ fs := by
  intro exts
  induction exts with
  | nil => intro h; simp [List.findSome?] at h
  | cons x xs ih =>
    intro h
    rw [List.findSome?_cons] at h
    by_cases hc : fs.contains (cand ++ x) = true
    · simp only [hc, if_true, Option.some.injEq] at h
      subst h
      simpa using hc
    · simp only [hc, if_false] at h
      exact ih h

theorem probeResolve_mem {cand t : Str} {fs : List Str}
    (h : probeResolve cand fs = some t) : t ∈ fs := by
  unfold probeResolve at h
  split at h
  · next t2 hE =>
      cases h
      exact findSome_probe_mem _ hE
  · next hE =>
      exact findSome_probe_mem _ h

theorem resolveImportPath_mem {src imp t : Str} {fs : List Str}
    (h : resolveImportPath src imp fs = some t) : t ∈ fs := by
  unfold resolveImportPath at h
  split at h
  · exact absurd h (by simp)
  · exact probeResolve_mem h

theorem foldl_inv {α β : Type} (P : β → Prop) :
    ∀ (l : List α) (step : β → α → β) (init : β),
      P init → (∀ acc x, x ∈ l → P acc → P (step acc x)) → P (l.foldl step init) := by
  intro l
  induction l with
  | nil => intro step init h _; exact h
  | cons x xs ih =>
    intro step init h hstep
    exact ih step (step init x) (hstep init x (List.mem_cons_self _ _) h)
      (fun acc y hy => hstep acc y (List.mem_cons_of_mem _ hy))

theorem rlInsert_inv {files : List Str} :
    ∀ (rl : List (Str × List Str)) (key dep : Str),
      (∀ pr ∈ rl, pr.1 ∈ files ∧ ∀ d ∈ pr.2, d ∈ files) →
      key ∈ files → dep ∈ files →
      ∀ pr ∈ rlInsert rl key dep, pr.1 ∈ files ∧ ∀ d ∈ pr.2, d ∈ files := by
  intro rl
  induction rl with
  | nil =>
    intro key dep _ hk hd pr hpr
    simp only [rlInsert, List.mem_singleton] at hpr
    subst hpr
    refine ⟨hk, ?_⟩
    intro d hdm
    simp only [List.mem_singleton] at hdm
    subst hdm
    exact hd
  | cons e rest ih =>
    intro key dep hinv hk hd pr hpr
    simp only [rlInsert] at hpr
    by_cases he : e.1 = key
    · rw [if_pos he] at hpr
      rcases List.mem_cons.mp hpr with rfl | hpr2
      · refine ⟨(hinv e (List.mem_cons_self _ _)).1, ?_⟩
        intro d hdm
        by_cases hcont : e.2.contains dep = true
        · rw [if_pos hcont] at hdm
          exact (hinv e (List.mem_cons_self _ _)).2 d hdm
        · rw [if_neg hcont] at hdm
          rcases List.mem_append.mp hdm with h1 | h1
          · exact (hinv e (List.mem_cons_self _ _)).2 d h1
          · simp only [List.mem_singleton] at h1
            subst h1
            exact hd
      · exact hinv pr (List.mem_cons_of_mem _ hpr2)
    · rw [if_neg he] at hpr
      rcases List.mem_cons.mp hpr with rfl | hpr2
      · exact hinv pr (List.mem_cons_self _ _)
      · exact ih key dep (fun x hx => hinv x (List.mem_cons_of_mem _ hx)) hk hd pr hpr2

/-- Claim C8: in the dependency graph, every reverse-lookup key is a
resolved target inside the scanned file list and every recorded dependent
is an importing file from that list; and `resolveImportPath` never resolves
a bare package specifier (neither relative nor alias-prefixed) to a local
file. -/
theorem claim_C8_graph_invariant :
    (∀ (files : List Str) (contents : List (Str × Str)),
        ∀ pr ∈ buildReverseLookup files contents,
          pr.1 ∈ files ∧ ∀ d ∈ pr.2, d ∈ files)
    ∧ (∀ (src imp : Str) (fs : List Str),
        List.isPrefixOf ".".toList src = false →
        List.isPrefixOf "@/".toList src = false →
        resolveImportPath src imp fs = none) := by
  constructor
  · intro files contents
    unfold buildReverseLookup
    refine foldl_inv (fun rl : List (Str × List Str) =>
        ∀ pr ∈ rl, pr.1 ∈ files ∧ ∀ d ∈ pr.2, d ∈ files)
      files.dedup _ [] (by simp) ?_
    intro acc f hf hacc
    refine foldl_inv (fun rl : List (Str × List Str) =>
        ∀ pr ∈ rl, pr.1 ∈ files ∧ ∀ d ∈ pr.2, d ∈ files)
      _ _ acc hacc ?_
    intro acc2 imp _ hacc2
    cases hres : resolveImportPath imp.source f files with
    | none =>
      simp only [hres]
      exact hacc2
    | some tgt =>
      simp only [hres]
      exact rlInsert_inv acc2 tgt f hacc2 (resolveImportPath_mem hres)
        (List.mem_dedup.mp hf)
  · intro src imp fs h1 h2
    unfold resolveImportPath
    rw [if_pos (by rw [h1, h2]; rfl)]

/-- Witness for C8 at a concrete two-file graph with one relative import. -/
theorem claim_C8_witness :
    "src/a.ts".toList ∈ ["src/a.ts".toList, "src/b.ts".toList]
    ∧ ∀ d ∈ ["src/b.ts".toList], d ∈ ["src/a.ts".toList, "src/b.ts".toList] :=
  claim_C8_graph_invariant.1 ["src/a.ts".toList, "src/b.ts".toList]
    [("src/b.ts".toList, "import a from './a'".toList)]
    ("src/a.ts".toList, ["src/b.ts".toList]) (by decide)

theorem foldl_max_init_le : ∀ (l : List ℕ) (init : ℕ), init ≤ l.foldl Nat.max init := by
  intro l
  induction l with
  | nil => intro init; exact Nat.le_refl _
  | cons x xs ih =>
    intro init
    exact Nat.le_trans (Nat.le_max_left init x) (ih (Nat.max init x))

theorem le_foldl_max : ∀ (l : List ℕ) (init x : ℕ), x ∈ l → x ≤ l.foldl Nat.max init := by
  intro l
  induction l with
  | nil => intro init x hx; simp at hx
  | cons y ys ih =>
    intro init x hx
    rcases List.mem_cons.mp hx with rfl | hx2
    · exact Nat.le_trans (Nat.le_max_right init x) (foldl_max_init_le ys (Nat.max init x))
    · exact ih (Nat.max init y) x hx2

theorem le_maxNat {l : List ℕ} {x : ℕ} (hx : x ∈ l) : x ≤ maxNat l :=
  le_foldl_max l 0 x hx

/-- Floor of a quotient of naturals over `ℚ` is natural floor division. -/
theorem floor_natCast_div (a b : ℕ) (hb : 0 < b) :
    ⌊((a : ℚ) / (b : ℚ))⌋ = ((a / b : ℕ) : ℤ) := by
  have hbQ : (0 : ℚ) < (b : ℚ) := by exact_mod_cast hb
  rw [Int.floor_eq_iff]
  constructor
  · rw [le_div_iff₀ hbQ]
    have h1 : (a / b) * b ≤ a := Nat.div_mul_le_self a b
    have h1Q : (((a / b) * b : ℕ) : ℚ) ≤ (a : ℚ) := by exact_mod_cast h1
    rw [Nat.cast_mul] at h1Q
    rw [Int.cast_natCast]
    exact h1Q
  · rw [div_lt_iff₀ hbQ]
    have h3 := Nat.div_add_mod a b
    have h4 := Nat.mod_lt a hb
    have h2 : a < (a / b + 1) * b := by
      calc a = b * (a / b) + a % b := h3.symm
        _ < b * (a / b) + b := by omega
        _ = (a / b + 1) * b := by ring
    have h2Q : (a : ℚ) < (((a / b + 1) * b : ℕ) : ℚ) := by exact_mod_cast h2
    rw [Nat.cast_mul, Nat.cast_add, Nat.cast_one] at h2Q
    rw [Int.cast_natCast]
    exact h2Q

/-- `roundRank` computes the half-up rounding of `(c/m)*100` exactly. -/
theorem roundRank_eq_floor (c m : ℕ) (hm : 0 < m) :
    ((roundRank c m : ℕ) : ℤ) = ⌊((c : ℚ) / (m : ℚ)) * 100 + 1 / 2⌋ := by
  have hm2 : (0 : ℚ) < (m : ℚ) := by exact_mod_cast hm
  have hxeq : ((c : ℚ) / (m : ℚ)) * 100 + 1 / 2 =
      (((200 * c + m : ℕ) : ℚ)) / (((2 * m : ℕ) : ℚ)) := by
    push_cast
    field_simp
    ring
  rw [hxeq, floor_natCast_div (200 * c + m) (2 * m) (by omega)]
  rfl

/-- Claim C9: `calculateImportRanks` maps each reverse-lookup key to
`round(100 * count / max)` (exact rational rounding), keeps exactly the
reverse-lookup keys (so files with no dependents — absent from the
reverse-lookup — are absent from the result), maps an empty reverse-lookup to
an empty result, and on the 3-vs-1 example yields ranks 100 and 33. -/
theorem claim_C9_import_ranks :
    calculateImportRanks [] = []
    ∧ (∀ rl : List (Str × List Str),
        (calculateImportRanks rl).map Prod.fst = rl.map Prod.fst)
    ∧ (∀ rl : List (Str × List Str), rl ≠ [] → (∀ e ∈ rl, e.2 ≠ []) →
        ∀ pr ∈ calculateImportRanks rl, ∃ e ∈ rl, pr.1 = e.1 ∧
          ((pr.2 : ℤ) = ⌊((e.2.length : ℚ) /
            ((maxNat (rl.map (fun x => x.2.length))) : ℚ)) * 100 + 1 / 2⌋))
    ∧ calculateImportRanks
        [("A".toList, ["f1".toList, "f2".toList, "f3".toList]),
         ("B".toList, ["f4".toList])] =
      [("A".toList, 100), ("B".toList, 33)] := by
  refine ⟨rfl, ?_, ?_, by decide⟩
  · intro rl
    cases rl with
    | nil => rfl
    | cons e rest =>
      simp [calculateImportRanks, List.map_map, Function.comp]
  · intro rl hne hnonempty pr hpr
    unfold calculateImportRanks at hpr
    rw [if_neg (by cases rl with
      | nil => exact absurd rfl hne
      | cons e rest => simp)] at hpr
    rw [List.map_map] at hpr
    obtain ⟨e, he, heq⟩ := List.mem_map.mp hpr
    refine ⟨e, he, ?_⟩
    subst heq
    refine ⟨rfl, ?_⟩
    have hmx : maxNat ((rl.map (fun e => (e.1, e.2.length))).map (fun x => x.2)) =
        maxNat (rl.map (fun x => x.2.length)) := by
      rw [List.map_map]
      rfl
    have hm : 0 < maxNat (rl.map (fun x => x.2.length)) := by
      have h1 : e.2.length ∈ rl.map (fun x => x.2.length) :=
        List.mem_map.mpr ⟨e, he, rfl⟩
      have h2 : 1 ≤ e.2.length := by
        have := hnonempty e he
        cases hx : e.2 with
        | nil => exact absurd hx this
        | cons a t => simp [hx]
      exact Nat.lt_of_lt_of_le (by omega) (le_maxNat h1)
    have := roundRank_eq_floor e.2.length (maxNat (rl.map (fun x => x.2.length))) hm
    simp only [Function.comp_apply, hmx]
    exact this

/-- Witness for C9 at the 3-vs-1 example graph. -/
theorem claim_C9_witness :
    ∃ e ∈ ([("A".toList, ["f1".toList, "f2".toList, "f3".toList]),
            ("B".toList, ["f4".toList])] : List (Str × List Str)),
      ("B".toList, (33 : ℕ)).1 = e.1 ∧
      (((("B".toList, (33 : ℕ)).2 : ℕ) : ℤ) =
        ⌊((e.2.length : ℚ) /
          ((maxNat (([("A".toList, ["f1".toList, "f2".toList, "f3".toList]),
            ("B".toList, ["f4".toList])] : List (Str × List Str)).map
              (fun x => x.2.length))) : ℚ)) * 100 + 1 / 2⌋) :=
  claim_C9_import_ranks.2.2.1
    [("A".toList, ["f1".toList, "f2".toList, "f3".toList]),
     ("B".toList, ["f4".toList])]
    (by decide) (by decide) ("B".toList, (33 : ℕ)) (by decide)

theorem map_line_eq {α : Type} {n : Nat} {o : Option α} {mk : α → ImportStatement}
    {st : ImportStatement} (hmk : ∀ a, (mk a).line = n) (h : o.map mk = some st) :
    st.line = n := by
  cases o with
  | none => exact absurd h (by simp)
  | some a =>
    simp only [Option.map_some', Option.some.injEq] at h
    rw [← h]
    exact hmk a

theorem processLine_line {isPy : Bool} {idx : Nat} {line : Str} {st : ImportStatement}
    (h : processLine isPy idx line = some st) : st.line = idx + 1 := by
  unfold processLine at h
  by_cases hc : isCommentLine line = true
  · rw [if_pos hc] at h
    exact absurd h (by simp)
  · rw [if_neg hc] at h
    cases h1 : mDefault (idx + 1) line with
    | some st1 =>
      rw [h1] at h
      cases h
      exact map_line_eq (fun pr => rfl) h1
    | none =>
    rw [h1] at h
    cases h2 : mNamed (idx + 1) line with
    | some st1 =>
      rw [h2] at h
      cases h
      exact map_line_eq (fun pr => rfl) h2
    | none =>
    rw [h2] at h
    cases h3 : mNs (idx + 1) line with
    | some st1 =>
      rw [h3] at h
      cases h
      unfold mNs at h3
      by_cases hg : List.isPrefixOf "import * as".toList (trimStr line) = true
      · rw [if_pos hg] at h3
        exact map_line_eq (fun pr => rfl) h3
      · rw [if_neg hg] at h3
        exact absurd h3 (by simp)
    | none =>
    rw [h3] at h
    cases h4 : mDyn (idx + 1) line with
    | some st1 =>
      rw [h4] at h
      cases h
      exact map_line_eq (fun pr => rfl) h4
    | none =>
    rw [h4] at h
    cases h5 : mReq (idx + 1) line with
    | some st1 =>
      rw [h5] at h
      cases h
      refine map_line_eq (fun pr => ?_) h5
      cases pr.1 <;> rfl
    | none =>
    rw [h5] at h
    cases isPy with
    | false => exact absurd h (by simp)
    | true =>
    simp only [if_true] at h
    cases h6 : mPyFrom (idx + 1) line with
    | some st1 =>
      rw [h6] at h
      cases h
      exact map_line_eq (fun pr => rfl) h6
    | none =>
    rw [h6] at h
    exact map_line_eq (fun pr => rfl) h

/-- The per-line recognition is the first hit of the ordered recognizer list. -/
theorem processLine_eq_findSome (isPy : Bool) (idx : Nat) (line : Str) :
    processLine isPy idx line =
      if isCommentLine line = true then none
      else ([mDefault, mNamed, mNs, mDyn, mReq] ++
          (if isPy then [mPyFrom, mPyImport] else [])).findSome?
        (fun m => m (idx + 1) line) := by
  unfold processLine
  by_cases hc : isCommentLine line = true
  · rw [if_pos hc, if_pos hc]
  · rw [if_neg hc, if_neg hc]
    simp only [List.cons_append, List.nil_append, List.findSome?_cons]
    cases h1 : mDefault (idx + 1) line with
    | some st1 => rfl
    | none =>
    cases h2 : mNamed (idx + 1) line with
    | some st1 => rfl
    | none =>
    cases h3 : mNs (idx + 1) line with
    | some st1 => rfl
    | none =>
    cases h4 : mDyn (idx + 1) line with
    | some st1 => rfl
    | none =>
    cases h5 : mReq (idx + 1) line with
    | some st1 => rfl
    | none =>
    cases isPy with
    | false => rfl
    | true =>
    simp only [if_true, List.findSome?_cons]
    cases h6 : mPyFrom (idx + 1) line with
    | some st1 => rfl
    | none =>
    cases h7 : mPyImport (idx + 1) line with
    | some st1 => rfl
    | none => simp [List.findSome?]

theorem flatMap_toList_length {α β : Type} (f : α → Option β) :
    ∀ l : List α, (l.flatMap (fun a => (f a).toList)).length ≤ l.length := by
  intro l
  induction l with
  | nil => simp
  | cons x xs ih =>
    simp only [List.flatMap_cons, List.length_append, List.length_cons]
    have : (f x).toList.length ≤ 1 := by
      cases f x <;> simp
    omega

/-- Claim C10: `extractImports` emits at most one statement per source line;
comment-prefixed lines contribute nothing; each line is tested against the
recognizers in the fixed source order (default import, named import,
namespace import, dynamic import, require, then the two Python forms for .py
files) and only the first match contributes; every emitted statement carries
the 1-based number of the line it was found on and is reproduced by
re-running the recognizer on that very line. -/
theorem claim_C10_extract_imports :
    (∀ (isPy : Bool) (lines : List Str),
        (extractImportsLines isPy lines).length ≤ lines.length)
    ∧ (∀ (isPy : Bool) (idx : Nat) (line : Str),
        isCommentLine line = true → processLine isPy idx line = none)
    ∧ (∀ (isPy : Bool) (idx : Nat) (line : Str),
        processLine isPy idx line =
          if isCommentLine line = true then none
          else ([mDefault, mNamed, mNs, mDyn, mReq] ++
              (if isPy then [mPyFrom, mPyImport] else [])).findSome?
            (fun m => m (idx + 1) line))
    ∧ (∀ (isPy : Bool) (idx : Nat) (line : Str) (st : ImportStatement),
        processLine isPy idx line = some st → st.line = idx + 1)
    ∧ (∀ (isPy : Bool) (lines : List Str) (st : ImportStatement),
        st ∈ extractImportsLines isPy lines →
          1 ≤ st.line ∧ st.line ≤ lines.length ∧
          processLine isPy (st.line - 1) (lines.getD (st.line - 1) []) = some st) := by
  refine ⟨?_, ?_, processLine_eq_findSome, fun _ _ _ _ h => processLine_line h, ?_⟩
  · intro isPy lines
    unfold extractImportsLines
    have := flatMap_toList_length (fun pr : ℕ × Str => processLine isPy pr.1 pr.2)
      lines.enum
    rw [List.enum_length] at this
    exact this
  · intro isPy idx line hcom
    unfold processLine
    rw [if_pos hcom]
  · intro isPy lines st hst
    unfold extractImportsLines at hst
    obtain ⟨pr, hpr, hin⟩ := List.mem_flatMap.mp hst
    have hproc : processLine isPy pr.1 pr.2 = some st := by
      cases hp : processLine isPy pr.1 pr.2 with
      | none => rw [hp] at hin; simp at hin
      | some st2 =>
        rw [hp] at hin
        simp only [Option.toList_some, List.mem_singleton] at hin
        subst hin
        rfl
    have hline : st.line = pr.1 + 1 := processLine_line hproc
    have hget : lines[pr.1]? = some pr.2 := List.mem_enum_iff_getElem?.mp hpr
    have hlen : pr.1 < lines.length := by
      by_contra hcon
      rw [List.getElem?_eq_none (by omega)] at hget
      exact absurd hget (by simp)
    refine ⟨by omega, by omega, ?_⟩
    have hgetD : lines.getD (st.line - 1) [] = pr.2 := by
      rw [List.getD_eq_getElem?_getD, hline]
      simp only [Nat.add_sub_cancel]
      rw [hget]
      rfl
    rw [hgetD, hline]
    simpa using hproc

/-- Witness for C10: a comment line yields nothing, and a concrete extracted
statement carries its 1-based line number and is recovered from its line. -/
theorem claim_C10_witness :
    processLine false 0 "// import x from 'y'".toList = none
    ∧ (1 ≤ (ImportStatement.mk "y".toList ["x".toList] true false 2).line
        ∧ (ImportStatement.mk "y".toList ["x".toList] true false 2).line ≤
            (["// c".toList, "import x from 'y'".toList] : List Str).length
        ∧ processLine false
            ((ImportStatement.mk "y".toList ["x".toList] true false 2).line - 1)
            ((["// c".toList, "import x from 'y'".toList] : List Str).getD
              ((ImportStatement.mk "y".toList ["x".toList] true false 2).line - 1) []) =
          some (ImportStatement.mk "y".toList ["x".toList] true false 2)) :=
  ⟨claim_C10_extract_imports.2.1 false 0 "// import x from 'y'".toList (by decide),
   claim_C10_extract_imports.2.2.2.2 false
     ["// c".toList, "import x from 'y'".toList]
     (ImportStatement.mk "y".toList ["x".toList] true false 2) (by decide)⟩

